import Mathlib

/-!
Verification of the FreeCell solver (`src/freecell.cc`) against its
natural-language specification.  The solver's data model and operations are
shallowly embedded below: the packed one-byte `Card`, the `Board` with its
flat 60-entry card bank and cascade dividers, the legal-move predicates, the
six move appliers, the heuristic, the fingerprint hash and equality used for
de-duplication, the visited-set `visit` routine, the search queue (a binary
max-heap as `std::priority_queue` keeps one), and the driver loop.
-/

namespace FC

/-- Number of reserve slots (`RESERVE_SIZE`). -/
def RESERVE_SIZE : Nat := 4

/-- Number of cascades (`CASCADE_COUNT`). -/
def CASCADE_COUNT : Nat := 8

/-- Total number of cards in the game (`TOTAL_CARDS`, one deck). -/
def TOTAL_CARDS : Nat := 52

/-- Size of the flat card bank: `TOTAL_CARDS + CASCADE_COUNT`. -/
def CARD_BANK_SIZE : Nat := 60

/-- Maximum search-frontier size (`GC_UPPER_BOUND = 1 << 20`). -/
def GC_UPPER_BOUND : Nat := 1 <<< 20

/-- Heuristic weight `HEURISTIC_GREED`. -/
def HEURISTIC_GREED : Int := 32

/-- Heuristic weight `MOVE_PUNISHMENT`. -/
def MOVE_PUNISHMENT : Int := 32

/-- Heuristic weight `INACCESSIBILITY_PUNISHMENT`. -/
def INACCESSIBILITY_PUNISHMENT : Int := 32

/-- Heuristic weight `TABLEAU_REWARD`. -/
def TABLEAU_REWARD : Int := 1

/-- A card is one byte: suit in the low 2 bits, face in the next 5 bits
(`struct Card`).  We carry the byte value `v`; `suit`/`face` read the
bitfields.  The all-zero byte is the empty-card sentinel. -/
structure Card where
  v : Nat
deriving DecidableEq, Repr

/-- The empty (zero) card. -/
def card0 : Card := ⟨0⟩

/-- Bitfield read of the 2-bit suit. -/
def Card.suit (c : Card) : Nat := c.v % 4

/-- Bitfield read of the 5-bit face. -/
def Card.face (c : Card) : Nat := c.v / 4 % 32

/-- Bitfield construction `Card(Face f, Suit s)`: assignment truncates each
field to its width. -/
def mkCard (f s : Nat) : Card := ⟨s % 4 + 4 * (f % 32)⟩

/-- `Card::color(Suit)`: `(s & 1) ^ ((s & 2) >> 1)`; red suits give `true`. -/
def suitColor (s : Nat) : Bool := ((s &&& 1) ^^^ ((s &&& 2) >>> 1)) != 0

/-- `Card::color()` on a card's own suit. -/
def Card.color (c : Card) : Bool := suitColor c.suit

/-- C truthiness of a card (`operator bool`): its byte is nonzero. -/
def Card.truthy (c : Card) : Bool := c.v != 0

/-- The 52-card deck, suit-major, faces ace to king (the card multiset the
parser checks an input deal against). -/
def deckList : List Card :=
  ((List.range 4).map (fun s => (List.range 13).map (fun f => mkCard (f + 1) s))).flatten

example : deckList.length = 52 := by decide

/-- The board (`struct Board`): four reserve slots, the flat 60-entry card
bank (52 cards plus one zero divider after each cascade), four foundation
counters, and the eight cascade dividers (`cascade_divs[i]` is the index of
the zero card after cascade `i`). -/
structure Board where
  reserve : List Card
  cards : List Card
  foundation : List Nat
  cascade_divs : List Nat
deriving DecidableEq

/-- `Board::cascade_end`: the index after cascade `i`. -/
def Board.cascade_end (b : Board) (i : Nat) : Nat := b.cascade_divs.getD i 0

/-- Start index of cascade `i` in the bank (the `base` of `Board::cascade`). -/
def Board.casBase (b : Board) (i : Nat) : Nat :=
  if i = 0 then 0 else b.cascade_end (i - 1) + 1

/-- Length of cascade `i` (the `length` of `Board::cascade`). -/
def Board.casLen (b : Board) (i : Nat) : Nat := b.cascade_end i - b.casBase i

/-- `Board::cascade_back`: the last card of cascade `i`, or the zero card. -/
def Board.cascade_back (b : Board) (i : Nat) : Card :=
  let ind := b.cascade_end i
  if ind = 0 then card0 else b.cards.getD (ind - 1) card0

/-- `Board::cascade_empty`, exact C semantics: when the first disjunct
`(!i && !cascade_divs[0])` is false and `i = 0`, the second disjunct reads
`cascade_divs[i-1]` with `i - 1 = -1` — an out-of-bounds access, modeled as
`none`. -/
def Board.cascade_empty? (b : Board) (i : Nat) : Option Bool :=
  if i = 0 && b.cascade_divs.getD 0 0 == 0 then some true
  else if i = 0 then none
  else some (b.cascade_divs.getD i 0 == 1 + b.cascade_divs.getD (i - 1) 0)

/-- `Board::cascade_empty` as compiled: in the `Board` layout the byte before
`cascade_divs` is `foundation[3]`, so the out-of-bounds `cascade_divs[-1]`
read for `i = 0` yields `foundation[3]`. -/
def Board.cascade_empty (b : Board) (i : Nat) : Bool :=
  if i = 0 && b.cascade_divs.getD 0 0 == 0 then true
  else b.cascade_divs.getD i 0 ==
    1 + (if i = 0 then b.foundation.getD 3 0 else b.cascade_divs.getD (i - 1) 0)

/-- `Board::reserve_full`: no reserve slot holds the zero card. -/
def Board.reserve_full (b : Board) : Bool := b.reserve.all Card.truthy

/-- `Board::is_won`: every foundation counter reached king (13). -/
def Board.is_won (b : Board) : Bool :=
  (List.range 4).all (fun i => !decide (b.foundation.getD i 0 < 13))

/-- `Board::completion`: foundation progress percentage. -/
def Board.completion (b : Board) : Nat :=
  (b.foundation.getD 0 0 + b.foundation.getD 1 0 + b.foundation.getD 2 0 +
   b.foundation.getD 3 0) * 100 / 52

/-- Number of occupied reserve slots (the `rsz` count of `check_sanity`). -/
def Board.reserveCount (b : Board) : Nat := b.reserve.countP Card.truthy

/-- Sum of the four foundation counters (the `fsz` count of `check_sanity`). -/
def Board.foundationSum (b : Board) : Nat := b.foundation.sum

/-- Total number of cards held by the eight cascades. -/
def Board.totalCas (b : Board) : Nat := ((List.range 8).map b.casLen).sum

/-- The conserved quantity of claim C7:
foundation total + occupied reserve slots + cascade cards. -/
def Board.cardCount (b : Board) : Nat :=
  b.foundationSum + b.reserveCount + b.totalCas

/-!  Move predicates. -/

/-- `tableau_stackable(btm, top)`: `top` can be placed on `btm`. -/
def tableau_stackable (btm top : Card) : Bool :=
  if !top.truthy then false
  else (btm.face == top.face + 1 && btm.color != top.color) || btm.v == 0

/-- `foundation_can_accept(b, c)`: note the comparison is modulo 13
(`% Card::Face::K`). -/
def foundation_can_accept (b : Board) (c : Card) : Bool :=
  c.truthy && (b.foundation.getD c.suit 0 + 1) % 13 == c.face % 13

/-- `reserve_to_tableau_valid`. -/
def reserve_to_tableau_valid (b : Board) (r c : Nat) : Bool :=
  tableau_stackable (b.cascade_back c) (b.reserve.getD r card0)

/-- `tableaux_move_valid`. -/
def tableaux_move_valid (b : Board) (s d : Nat) : Bool :=
  tableau_stackable (b.cascade_back d) (b.cascade_back s)

/-- `foundation_to_tableau_valid`; the face subtraction happens in C `int`
arithmetic, hence the `Int` comparison. -/
def foundation_to_tableau_valid (b : Board) (f c : Nat) : Bool :=
  if b.foundation.getD f 0 == 0 then false
  else
    let onto := b.cascade_back c
    if !onto.truthy then true
    else if suitColor f == onto.color then false
    else decide ((b.foundation.getD f 0 : Int) = (onto.face : Int) - 1)

/-!  The card-bank copy routines and the six move appliers. -/

/-- Card-copy loop of `Board::copy_from_and_append`: copy the `ce` cards
below the insertion point, write the appended card, then fill the remaining
`CARD_BANK_SIZE - ce - 1` slots from the source (dropping its last byte). -/
def bankInsert (l : List Card) (ce : Nat) (app : Card) : List Card :=
  l.take ce ++ app :: (l.drop ce).take (CARD_BANK_SIZE - ce - 1)

/-- Card-copy loop of `Board::copy_from_but_remove`: copy everything except
index `lc`, and zero the final slot. -/
def bankRemove (l : List Card) (lc : Nat) : List Card :=
  l.take lc ++ l.drop (lc + 1) ++ [card0]

/-- A contiguous half-open slice `[a, b)` of the card bank. -/
def slice (l : List Card) (a b : Nat) : List Card := (l.drop a).take (b - a)

/-- Card-copy loops of `Board::copy_from_but_move` (both branches of the
`dfrom < appto` split). -/
def bankMove (l : List Card) (dfrom dto appto : Nat) : List Card :=
  if dfrom < appto then
    l.take dfrom ++ slice l dto appto ++ slice l dfrom dto ++ l.drop appto
  else
    l.take appto ++ slice l dfrom dto ++ slice l appto dfrom ++ l.drop dto

/-- Rebuild a divider list entrywise from its index (the per-divider update
loops at the end of the copy routines). -/
def idxMap (f : Nat → Nat → Nat) : Nat → List Nat → List Nat
  | _, [] => []
  | i, d :: ds => f i d :: idxMap f (i + 1) ds

/-- `Board::copy_from_and_append` (reserve and foundation copied through). -/
def copy_from_and_append (b : Board) (c : Nat) (app : Card) : Board :=
  { b with
    cards := bankInsert b.cards (b.cascade_end c) app
    cascade_divs := idxMap (fun d v => if d < c then v else v + 1) 0 b.cascade_divs }

/-- `Board::copy_from_but_remove`. -/
def copy_from_but_remove (b : Board) (c : Nat) : Board :=
  { b with
    cards := bankRemove b.cards (b.cascade_end c - 1)
    cascade_divs := idxMap (fun d v => if d < c then v else v - 1) 0 b.cascade_divs }

/-- `Board::copy_from_but_move`: the divider update subtracts `count` for
cascades at or past the source, then adds it for those at or past the
destination. -/
def copy_from_but_move (b : Board) (f t cnt : Nat) : Board :=
  { b with
    cards := bankMove b.cards (b.cascade_end f - cnt) (b.cascade_end f) (b.cascade_end t)
    cascade_divs := idxMap
      (fun d v => (if f ≤ d then v - cnt else v) + (if t ≤ d then cnt else 0))
      0 b.cascade_divs }

/-- `Board::reserve_card`: place a card in the first empty reserve slot (a
no-op when the reserve is full). -/
def reserve_card : List Card → Card → List Card
  | [], _ => []
  | r :: rs, c => if !r.truthy then c :: rs else r :: reserve_card rs c

/-- `reserve_to_tableau`: append the reserve card to cascade `c`, then clear
the reserve slot. -/
def reserve_to_tableau (b : Board) (r c : Nat) : Board :=
  let res := copy_from_and_append b c (b.reserve.getD r card0)
  { res with reserve := res.reserve.set r card0 }

/-- `tableaux_move` (single card). -/
def tableaux_move (b : Board) (s d : Nat) : Board := copy_from_but_move b s d 1

/-- `tableau_to_reserve`. -/
def tableau_to_reserve (b : Board) (s : Nat) : Board :=
  let res := copy_from_but_remove b s
  { res with reserve := reserve_card res.reserve (b.cascade_back s) }

/-- `tableau_to_foundation`. -/
def tableau_to_foundation (b : Board) (s : Nat) : Board :=
  let res := copy_from_but_remove b s
  let su := (b.cascade_back s).suit
  { res with foundation := res.foundation.set su (res.foundation.getD su 0 + 1) }

/-- `foundation_to_tableau`: the pulled-down card is rebuilt from the counter
and suit via the bitfield constructor. -/
def foundation_to_tableau (b : Board) (f c : Nat) : Board :=
  let fcard := mkCard (b.foundation.getD f 0) f
  let res := copy_from_and_append b c fcard
  { res with foundation := res.foundation.set f (res.foundation.getD f 0 - 1) }

/-- `reserve_to_foundation`. -/
def reserve_to_foundation (b : Board) (r : Nat) : Board :=
  let su := (b.reserve.getD r card0).suit
  { b with reserve := b.reserve.set r card0,
           foundation := b.foundation.set su (b.foundation.getD su 0 + 1) }

/-!  Fingerprint hash and equality (`SearchBoard::Hash`,
`SearchBoard::BasicallyEqual`). -/

/-- A 64-bit little-endian word assembled from up to eight bytes. -/
def word64 (bytes : List Nat) : Nat :=
  bytes.foldr (fun b acc => b % 256 + 256 * acc) 0

/-- The 64-byte block hashed by `SearchBoard::Hash`: the 60 card-bank bytes
followed by the 4 foundation bytes (`block_sz = sizeof(cards) +
sizeof(foundation)`); the reserve and the dividers are not part of it. -/
def hashBlock (b : Board) : List Nat := b.cards.map Card.v ++ b.foundation

/-- `SearchBoard::Hash`: XOR of the eight 64-bit chunks of the block
(`remainder = 0`, so there is no tail step). -/
def Hash (b : Board) : Nat :=
  (List.range 8).foldl
    (fun acc k => acc ^^^ word64 (((hashBlock b).drop (8 * k)).take 8)) 0

/-- `SearchBoard::BasicallyEqual`: compares the 60 bank bytes and the four
foundation counters only. -/
def BasicallyEqual (a b : Board) : Bool :=
  (List.range 60).all
    (fun i => (a.cards.getD i card0).v == (b.cards.getD i card0).v) &&
  (List.range 4).all (fun i => a.foundation.getD i 0 == b.foundation.getD i 0)

/-!  The heuristic (`SearchBoard::calc_heuristic`) and the formula claim C8
states for it. -/

/-- Body of the inner pair-scanning loop of `calc_heuristic` at bank index
`i`, with `d` the current cascade's end divider. -/
def heurBody (cards : List Card) (d : Nat) (acc : Int) (i : Nat) : Int :=
  if (cards.getD i card0).face > (cards.getD (i - 1) card0).face then
    acc - ((d - i : Nat) : Int) * INACCESSIBILITY_PUNISHMENT
  else acc + TABLEAU_REWARD

/-- The inner `while (++i < d)` loop of `calc_heuristic`: the body runs for
the bank indices `i0+1 .. d-1` (none when `i0 + 1 ≥ d`). -/
def cascadeScan (cards : List Card) (d i0 : Nat) (acc : Int) : Int :=
  (List.range' (i0 + 1) (d - (i0 + 1))).foldl (heurBody cards d) acc

/-- Value of the running index after the inner loop: the first tested index
at or past `d` (the pre-increment runs even when the test fails at once). -/
def exitI (d i0 : Nat) : Nat := max (i0 + 1) d

/-- `SearchBoard::calc_heuristic`, with the node's stored depth passed
explicitly (`num_moves()`): foundation greed, then the pair scan threaded
through all eight dividers with one running bank index, then the per-move
punishment. -/
def calc_heuristic (b : Board) (depth : Nat) : Int :=
  (b.cascade_divs.foldl
    (fun st d => (exitI d st.1 + 1, cascadeScan b.cards d st.1 st.2))
    ((0 : Nat),
      ((b.foundation.getD 0 0 + b.foundation.getD 1 0 + b.foundation.getD 2 0 +
        b.foundation.getD 3 0 : Nat) : Int) * HEURISTIC_GREED)).2
  - (depth : Int) * MOVE_PUNISHMENT

/-- Cascade `i` extracted from the bank as a list of cards. -/
def Board.casList (b : Board) (i : Nat) : List Card :=
  (b.cards.drop (b.casBase i)).take (b.casLen i)

/-- The per-cascade pair score exactly as claim C8 states it: each adjacent
pair `(k-1, k)` contributes `REWARD` when it is not an inversion, and
`-(cascade_size - k) * PENALTY` when it is, `k` being the within-cascade
index of the deeper card. -/
def pairScore (l : List Card) : Int :=
  (List.range' 1 (l.length - 1)).foldl
    (fun acc k =>
      if (l.getD k card0).face > (l.getD (k - 1) card0).face then
        acc - ((l.length - k : Nat) : Int) * INACCESSIBILITY_PUNISHMENT
      else acc + TABLEAU_REWARD) 0

/-- The heuristic formula exactly as claim C8 states it. -/
def specHeuristic (b : Board) (depth : Nat) : Int :=
  (b.foundationSum : Int) * HEURISTIC_GREED +
  ((List.range 8).map (fun i => pairScore (b.casList i))).sum -
  (depth : Int) * MOVE_PUNISHMENT

/-!  Concrete boards used by counterexamples and witnesses. -/

/-- A board whose spade foundation is complete (counter 13); cascades empty. -/
def c3Board : Board :=
  { reserve := [card0, card0, card0, card0]
    cards := List.replicate 60 card0
    foundation := [13, 0, 0, 0]
    cascade_divs := [0, 1, 2, 3, 4, 5, 6, 7] }

/-- A fresh board with empty foundations; used to witness the amended C3. -/
def c3WitnessBoard : Board :=
  { reserve := [card0, card0, card0, card0]
    cards := List.replicate 60 card0
    foundation := [0, 0, 0, 0]
    cascade_divs := [0, 1, 2, 3, 4, 5, 6, 7] }

/-- A board with club foundation at 3, clubs 4..7 in cascade 0 and clubs
8..K in cascade 1 (all other suits founded): `cascade_divs[0] = 4` while
`foundation[3] = 3`, so the out-of-bounds disjunct of `cascade_empty(0)`
compares `4 == 1 + 3` and reports the 4-card cascade empty. -/
def c10Board : Board :=
  { reserve := [card0, card0, card0, card0]
    cards := [mkCard 4 3, mkCard 5 3, mkCard 6 3, mkCard 7 3, card0,
              mkCard 8 3, mkCard 9 3, mkCard 10 3, mkCard 11 3, mkCard 12 3,
              mkCard 13 3, card0] ++ List.replicate 48 card0
    foundation := [13, 13, 13, 3]
    cascade_divs := [4, 11, 12, 13, 14, 15, 16, 17] }

/-- A board with an empty cascade 0 followed by a two-card cascade (king and
queen of spades) in cascade 1; spade foundation at 11, the rest complete.
The heuristic's running bank index drifts past the first pair of cascade 1
after the empty cascade 0, so that pair is never scanned. -/
def c8Board : Board :=
  { reserve := [card0, card0, card0, card0]
    cards := [card0, mkCard 13 0, mkCard 12 0, card0] ++ List.replicate 56 card0
    foundation := [11, 13, 13, 13]
    cascade_divs := [0, 3, 4, 5, 6, 7, 8, 9] }

/-- Boards for the C6 witness: identical cascades, dividers and foundations,
reserves differing in which slot holds the ace of spades. -/
def c6BoardA : Board :=
  { c3WitnessBoard with reserve := [mkCard 1 0, card0, card0, card0] }

/-- Same as `c6BoardA` with the reserve card in the second slot. -/
def c6BoardB : Board :=
  { c3WitnessBoard with reserve := [card0, mkCard 1 0, card0, card0] }

/-- C3: counterexample.  With the spade foundation complete (counter 13),
`foundation_can_accept` judges moving the ace of spades to the foundation
legal — the comparison is modulo 13 — although the claimed condition
"counter = face − 1" is false there (13 ≠ 0).  So the claimed equivalence
does not hold for every counter value in [0, 13]. -/
theorem c3_mod13_counterexample :
    foundation_can_accept c3Board (mkCard 1 0) = true ∧
    ¬(c3Board.foundation.getD (mkCard 1 0).suit 0 = (mkCard 1 0).face - 1) := by
  decide

/-- C3 (amended): for every board whose relevant foundation counter is in
[0, 13] and every card with face in [1, 13], the foundation move is judged
legal iff the counter equals the face minus one, or the counter is 13 and
the card is an ace (the comparison wraps modulo 13). -/
theorem c3_foundation_can_accept_iff (b : Board) (c : Card)
    (hf : b.foundation.getD c.suit 0 ≤ 13)
    (h1 : 1 ≤ c.face) (h13 : c.face ≤ 13) :
    foundation_can_accept b c = true ↔
      (b.foundation.getD c.suit 0 = c.face - 1 ∨
        (b.foundation.getD c.suit 0 = 13 ∧ c.face = 1)) := by
  have key : ∀ f, f ≤ 13 → ∀ fc, 1 ≤ fc → fc ≤ 13 →
      ((((f + 1) % 13 == fc % 13) = true) ↔ (f = fc - 1 ∨ (f = 13 ∧ fc = 1))) := by
    decide
  have hv : c.truthy = true := by
    have : c.v ≠ 0 := by
      intro h
      rw [Card.face, h] at h1
      exact absurd h1 (by decide)
    simpa [Card.truthy] using this
  rw [foundation_can_accept, Bool.and_eq_true]
  constructor
  · rintro ⟨-, h⟩
    exact (key _ hf _ h1 h13).mp h
  · intro h
    exact ⟨hv, (key _ hf _ h1 h13).mpr h⟩

/-- C3 (amended) witness: instantiation at a fresh board and the ace of
spades. -/
theorem c3_foundation_can_accept_iff_witness :
    foundation_can_accept c3WitnessBoard (mkCard 1 0) = true ↔
      (c3WitnessBoard.foundation.getD (mkCard 1 0).suit 0 = (mkCard 1 0).face - 1 ∨
        (c3WitnessBoard.foundation.getD (mkCard 1 0).suit 0 = 13 ∧ (mkCard 1 0).face = 1)) :=
  c3_foundation_can_accept_iff c3WitnessBoard (mkCard 1 0)
    (by decide) (by decide) (by decide)

/-- C9: counterexample.  `GC_UPPER_BOUND` is `1 << 20 = 1,048,576`, not the
claimed 1,200,000: a frontier of 1,100,000 entries already exceeds the
code's ceiling but not the claimed one, so pruning does not begin exactly at
1,200,000. -/
theorem c9_bound_counterexample :
    GC_UPPER_BOUND = 1048576 ∧ 1100000 > GC_UPPER_BOUND ∧ ¬(1100000 > 1200000) := by
  refine ⟨by decide, by decide, by decide⟩

/-- C10: `cascade_empty(0)` on a board whose cascade 0 holds four cards
evaluates `cascade_divs[-1]` — an out-of-bounds read, modeled as `none` —
and, as compiled (the byte before `cascade_divs` is `foundation[3]`), it
returns `true` for the nonempty cascade because
`cascade_divs[0] = 1 + foundation[3]`.  Both halves of the claimed safety
property fail. -/
theorem c10_cascade_empty_oob :
    Board.cascade_empty? c10Board 0 = none ∧
    Board.cascade_empty c10Board 0 = true ∧
    c10Board.casLen 0 = 4 := by
  refine ⟨by decide, by decide, by decide⟩

/-- C6: two boards with identical cascade contents, dividers and foundation
counters — whatever their reserves hold — are identified by the
de-duplication equality and hash, hence collapse to one search-graph node. -/
theorem c6_fingerprint_ignores_reserve (a b : Board)
    (hc : a.cards = b.cards) (hd : a.cascade_divs = b.cascade_divs)
    (hf : a.foundation = b.foundation) (hr : a.reserve ≠ b.reserve) :
    BasicallyEqual a b = true ∧ Hash a = Hash b := by
  constructor
  · simp [BasicallyEqual, hc, hf]
  · simp [Hash, hashBlock, hc, hf]

/-- C6 witness: concrete boards differing only in the reserve slot holding
the ace of spades. -/
theorem c6_fingerprint_ignores_reserve_witness :
    BasicallyEqual c6BoardA c6BoardB = true ∧ Hash c6BoardA = Hash c6BoardB :=
  c6_fingerprint_ignores_reserve c6BoardA c6BoardB rfl rfl rfl (by decide)

/-- C8: counterexample.  On `c8Board` (empty cascade 0, then K♠ Q♠) the
code's heuristic is `50 * GREED = 1600`: the king–queen pair is skipped
because the running index drifted past it, while the claimed formula awards
it `REWARD` and yields 1601.  The claimed equality fails on this node at
depth 0. -/
theorem c8_empty_cascade_counterexample :
    calc_heuristic c8Board 0 = 1600 ∧ specHeuristic c8Board 0 = 1601 ∧
    calc_heuristic c8Board 0 ≠ specHeuristic c8Board 0 := by
  refine ⟨by decide, by decide, by decide⟩

/-!  Equivalence of `calc_heuristic` with the claimed formula on boards with
no empty cascade (the amended C8). -/

/-- Per-index contribution of the inner heuristic loop. -/
def heurContrib (cards : List Card) (d i : Nat) : Int :=
  if (cards.getD i card0).face > (cards.getD (i - 1) card0).face then
    -(((d - i : Nat) : Int) * INACCESSIBILITY_PUNISHMENT)
  else TABLEAU_REWARD

theorem heurBody_shape (cards : List Card) (d : Nat) :
    heurBody cards d = fun acc i => acc + heurContrib cards d i := by
  funext acc i
  rw [heurBody, heurContrib]
  split <;> ring

/-- Per-index contribution of the claimed pair score. -/
def pairContrib (l : List Card) (k : Nat) : Int :=
  if (l.getD k card0).face > (l.getD (k - 1) card0).face then
    -(((l.length - k : Nat) : Int) * INACCESSIBILITY_PUNISHMENT)
  else TABLEAU_REWARD

theorem pairScore_shape (l : List Card) :
    pairScore l =
      (List.range' 1 (l.length - 1)).foldl (fun acc k => acc + pairContrib l k) 0 := by
  rw [pairScore]
  congr 1
  funext acc k
  rw [pairContrib]
  split <;> ring

theorem getD_drop (l : List Card) (a k : Nat) :
    (l.drop a).getD k card0 = l.getD (a + k) card0 := by
  simp [List.getD_eq_getElem?_getD, List.getElem?_drop]

theorem getD_take_lt (l : List Card) (m k : Nat) (h : k < m) :
    (l.take m).getD k card0 = l.getD k card0 := by
  simp [List.getD_eq_getElem?_getD, List.getElem?_take, h]

/-- Folding an accumulate-only body over two equally long index ranges whose
pointwise contributions agree. -/
theorem foldl_range'_congr (h₁ h₂ : Nat → Int) :
    ∀ (n s t : Nat) (acc : Int),
      (∀ j, j < n → h₁ (s + j) = h₂ (t + j)) →
      (List.range' s n).foldl (fun a k => a + h₁ k) acc
        = (List.range' t n).foldl (fun a k => a + h₂ k) acc := by
  intro n
  induction n with
  | zero => intro s t acc _; rfl
  | succ m ih =>
      intro s t acc h
      rw [List.range'_succ, List.range'_succ]
      simp only [List.foldl_cons]
      have h0 : h₁ s = h₂ t := by simpa using h 0 (by omega)
      rw [h0]
      exact ih (s + 1) (t + 1) (acc + h₂ t) (fun j hj => by
        have := h (j + 1) (by omega)
        rw [show s + 1 + j = s + (j + 1) by omega,
            show t + 1 + j = t + (j + 1) by omega]
        exact this)

/-- The initial accumulator of an accumulate-only fold can be pulled out. -/
theorem foldl_acc_out (h : Nat → Int) :
    ∀ (L : List Nat) (acc : Int),
      L.foldl (fun a k => a + h k) acc = acc + L.foldl (fun a k => a + h k) 0 := by
  intro L
  induction L with
  | nil => intro acc; simp
  | cons x xs ih =>
      intro acc
      simp only [List.foldl_cons]
      rw [ih (acc + h x), ih (0 + h x)]
      ring

/-- The inner loop from a clean entry index `i0 ≤ d` computes the claimed
pair score of the cascade occupying bank slots `[i0, d)`. -/
theorem cascadeScan_eq_pairScore (cards : List Card) (d i0 : Nat) (acc : Int)
    (hle : i0 ≤ d) (hd : d ≤ cards.length) :
    cascadeScan cards d i0 acc
      = acc + pairScore ((cards.drop i0).take (d - i0)) := by
  set l : List Card := (cards.drop i0).take (d - i0) with hl
  have llen : l.length = d - i0 := by
    rw [hl]
    simp [List.length_take, List.length_drop]
    omega
  have lget : ∀ k, k < d - i0 → l.getD k card0 = cards.getD (i0 + k) card0 := by
    intro k hk
    rw [hl, getD_take_lt _ _ _ hk, getD_drop]
  rw [cascadeScan, pairScore_shape, heurBody_shape, llen,
      show d - i0 - 1 = d - (i0 + 1) by omega,
      ← foldl_acc_out (pairContrib l)]
  apply foldl_range'_congr
  intro j hj
  have e1 : l.getD (1 + j) card0 = cards.getD (i0 + 1 + j) card0 := by
    rw [lget (1 + j) (by omega)]
    congr 1
    omega
  have e2 : l.getD (1 + j - 1) card0 = cards.getD (i0 + 1 + j - 1) card0 := by
    rw [show 1 + j - 1 = j by omega, lget j (by omega),
        show i0 + 1 + j - 1 = i0 + j by omega]
  have e3 : ((l.length - (1 + j) : Nat) : Int) = ((d - (i0 + 1 + j) : Nat) : Int) := by
    rw [llen]
    congr 1
    omega
  rw [heurContrib, pairContrib, e1, e2, e3]

/-- Monotonicity of the dividers under the chain hypothesis. -/
theorem cascade_end_mono (b : Board)
    (hchain : ∀ i, i + 1 < 8 → b.cascade_end i < b.cascade_end (i + 1)) :
    ∀ i k, i + k < 8 → b.cascade_end i ≤ b.cascade_end (i + k) := by
  intro i k
  induction k with
  | zero => intro _; exact Nat.le_refl _
  | succ m ih =>
      intro h
      have h2 := hchain (i + m) (by omega)
      have h3 := ih (by omega)
      have h4 : b.cascade_end (i + (m + 1)) = b.cascade_end (i + m + 1) := rfl
      omega

theorem sum_four (l : List Nat) (h : l.length = 4) :
    l.sum = l.getD 0 0 + l.getD 1 0 + l.getD 2 0 + l.getD 3 0 := by
  rcases l with _ | ⟨a, _ | ⟨b, _ | ⟨c, _ | ⟨d, _ | ⟨e, t⟩⟩⟩⟩⟩ <;>
    simp_all [List.getD] <;> omega

/-- The outer heuristic fold, processed cascade by cascade: on a board with
no empty cascades the running index re-enters each cascade at its base, so
the fold accumulates exactly the claimed per-cascade pair scores. -/
theorem heurFold_eq (b : Board)
    (hc : b.cards.length = 60) (hd : b.cascade_divs.length = 8)
    (hchain : ∀ i, i + 1 < 8 → b.cascade_end i < b.cascade_end (i + 1))
    (hlast : b.cascade_end 7 ≤ 60)
    (hne : ∀ i, i < 8 → 1 ≤ b.casLen i) :
    ∀ k j, j + k = 8 → ∀ acc : Int,
      ((b.cascade_divs.drop j).foldl
        (fun st d => (exitI d st.1 + 1, cascadeScan b.cards d st.1 st.2))
        (b.casBase j, acc)).2
      = acc + ((List.range' j k).map (fun i => pairScore (b.casList i))).sum := by
  intro k
  induction k with
  | zero =>
      intro j hj acc
      have hj8 : j = 8 := by omega
      have hnil : b.cascade_divs.drop j = [] := by
        apply List.drop_eq_nil_of_le
        omega
      rw [hnil]
      simp
  | succ m ih =>
      intro j hj acc
      have hj8 : j < 8 := by omega
      have hjlen : j < b.cascade_divs.length := by omega
      have hdropj : b.cascade_divs.drop j
          = b.cascade_end j :: b.cascade_divs.drop (j + 1) := by
        rw [List.drop_eq_getElem_cons hjlen]
        congr 1
        rw [Board.cascade_end, List.getD_eq_getElem?_getD, List.getElem?_eq_getElem hjlen]
        rfl
      have hbase_lt : b.casBase j < b.cascade_end j := by
        have := hne j hj8
        rw [Board.casLen] at this
        omega
      have hfst : exitI (b.cascade_end j) (b.casBase j) + 1 = b.casBase (j + 1) := by
        rw [exitI, Nat.max_eq_right (by omega), Board.casBase]
        simp
      have hdle : b.cascade_end j ≤ b.cards.length := by
        rw [hc]
        have := cascade_end_mono b hchain j (7 - j) (by omega)
        rw [show j + (7 - j) = 7 by omega] at this
        omega
      have hscan := cascadeScan_eq_pairScore b.cards (b.cascade_end j) (b.casBase j)
        acc (Nat.le_of_lt hbase_lt) hdle
      rw [hdropj]
      simp only [List.foldl_cons]
      rw [hfst, hscan]
      have hcl : (b.cards.drop (b.casBase j)).take (b.cascade_end j - b.casBase j)
          = b.casList j := rfl
      rw [hcl, ih (j + 1) (by omega) (acc + pairScore (b.casList j))]
      rw [List.range'_succ]
      simp only [List.map_cons, List.sum_cons]
      ring

/-- C8 (amended): on every board with the standard 60-slot bank, strictly
increasing in-range dividers, and no empty cascade, the code's heuristic
equals the claimed formula
`GREED·Σfoundation + Σ pair contributions − MOVE_COST·depth`.  (With an
empty cascade the scan can skip leading pairs of the following cascade, as
`c8_empty_cascade_counterexample` shows.) -/
theorem c8_heuristic_formula (b : Board) (depth : Nat)
    (hc : b.cards.length = 60) (hf : b.foundation.length = 4)
    (hd : b.cascade_divs.length = 8)
    (hchain : ∀ i, i < 7 → b.cascade_end i < b.cascade_end (i + 1))
    (hlast : b.cascade_end 7 ≤ 60)
    (hne : ∀ i, i < 8 → 1 ≤ b.casLen i) :
    calc_heuristic b depth = specHeuristic b depth := by
  have hchain' : ∀ i, i + 1 < 8 → b.cascade_end i < b.cascade_end (i + 1) :=
    fun i h => hchain i (by omega)
  have hfold := heurFold_eq b hc hd hchain' hlast hne 8 0 rfl
    (((b.foundation.getD 0 0 + b.foundation.getD 1 0 + b.foundation.getD 2 0 +
       b.foundation.getD 3 0 : Nat) : Int) * HEURISTIC_GREED)
  rw [calc_heuristic]
  rw [show b.casBase 0 = 0 from rfl, List.drop_zero] at hfold
  rw [hfold]
  rw [specHeuristic, Board.foundationSum, sum_four b.foundation hf]
  rw [show List.range 8 = List.range' 0 8 from List.range_eq_range' 8]

/-- A full 52-card initial deal: the deck laid out over eight cascades of
sizes 7,7,7,7,6,6,6,6 with the dividers after each cascade. -/
def initCards : List Card :=
  deckList.take 7 ++ [card0] ++ (deckList.drop 7).take 7 ++ [card0] ++
  (deckList.drop 14).take 7 ++ [card0] ++ (deckList.drop 21).take 7 ++ [card0] ++
  (deckList.drop 28).take 6 ++ [card0] ++ (deckList.drop 34).take 6 ++ [card0] ++
  (deckList.drop 40).take 6 ++ [card0] ++ (deckList.drop 46).take 6 ++ [card0]

/-- The freshly dealt board for `initCards`. -/
def initBoard : Board :=
  { reserve := [card0, card0, card0, card0]
    cards := initCards
    foundation := [0, 0, 0, 0]
    cascade_divs := [7, 15, 23, 31, 38, 45, 52, 59] }

/-- C8 (amended) witness: the code heuristic agrees with the claimed formula
on the concrete full deal. -/
theorem c8_heuristic_formula_witness :
    calc_heuristic initBoard 0 = specHeuristic initBoard 0 :=
  c8_heuristic_formula initBoard 0 (by decide) (by decide) (by decide)
    (by decide) (by decide) (by decide)

/-!  The search frontier.  `SearchQueue` is a `std::priority_queue` over
node pointers ordered by `SearchBoard::PtrLess` (heuristic only); its
underlying container is a vector kept as a binary max-heap.  We model a
frontier entry as the node's fingerprint key paired with its heuristic (the
two pointer dereferences `PtrLess` performs; a node's heuristic is never
mutated after insertion).  `SearchQ::pop_back` calls `c.pop_back()`: it
removes the *last element of the heap array*. -/

/-- A de-duplication fingerprint: the card bank and the foundation counters
(exactly what `Hash`/`BasicallyEqual` consume). -/
abbrev Fp : Type := List Card × List Nat

/-- The fingerprint of a board. -/
def fingerprint (b : Board) : Fp := (b.cards, b.foundation)

/-- A frontier entry: fingerprint key and heuristic. -/
abbrev QElem : Type := Fp × Int

/-- Placeholder entry for out-of-range reads (never reached on the indices
the heap algorithms use). -/
def qdefault : QElem := ((([], []) : Fp), (0 : Int))

/-- `SearchBoard::PtrLess`: compare heuristics only. -/
def ptrLess (a b : QElem) : Bool := decide (a.2 < b.2)

/-- Swap two positions of the heap array. -/
def swapL (q : List QElem) (i j : Nat) : List QElem :=
  (q.set i (q.getD j qdefault)).set j (q.getD i qdefault)

/-- Sift-up of `std::push_heap`: while the parent compares less than the
new element, swap them. -/
def siftUp : List QElem → Nat → List QElem
  | q, 0 => q
  | q, (i + 1) =>
      if ptrLess (q.getD (i / 2) qdefault) (q.getD (i + 1) qdefault) then
        siftUp (swapL q (i + 1) (i / 2)) (i / 2)
      else q
termination_by q i => i
decreasing_by
  omega

/-- `search.push`: append to the heap array and sift up. -/
def sqPush (q : List QElem) (e : QElem) : List QElem := siftUp (q ++ [e]) q.length

/-- Sift-down re-heapification used by `std::pop_heap` after the root and
last slots are exchanged (fuel bounds the walk down the tree). -/
def siftDown : Nat → List QElem → Nat → List QElem
  | 0, q, _ => q
  | (fuel + 1), q, i =>
      if 2 * i + 1 ≥ q.length then q
      else
        let c := if 2 * i + 2 < q.length &&
            ptrLess (q.getD (2 * i + 1) qdefault) (q.getD (2 * i + 2) qdefault)
          then 2 * i + 2 else 2 * i + 1
        if ptrLess (q.getD i qdefault) (q.getD c qdefault) then
          siftDown fuel (swapL q i c) c
        else q

/-- `search.pop`: move the last element to the root, shrink, sift down. -/
def sqPop (q : List QElem) : List QElem :=
  match q with
  | [] => []
  | [_] => []
  | _ =>
      let q' := q.getLastD qdefault :: (q.dropLast.drop 1)
      siftDown q'.length q' 0

/-- `search.top()`: the heap root. -/
def sqTop (q : List QElem) : QElem := q.getD 0 qdefault

/-- `SearchQ::pop_back`, i.e. `c.pop_back()`: drop the last element of the
heap array. -/
def sqPopBack (q : List QElem) : List QElem := q.dropLast

/-- The `while (search.size() > GC_UPPER_BOUND) search.pop_back();` loop,
with fuel (the loop removes one entry per iteration, so `q.length` suffices). -/
def pruneGo : Nat → List QElem → List QElem
  | 0, q => q
  | (n + 1), q => if GC_UPPER_BOUND < q.length then pruneGo n (sqPopBack q) else q

/-- The pruning loop of `solve`. -/
def pruneAll (q : List QElem) : List QElem := pruneGo q.length q

theorem pruneGo_spec : ∀ (n : Nat) (q : List QElem), q.length ≤ n + GC_UPPER_BOUND →
    pruneGo n q = if GC_UPPER_BOUND < q.length then q.take GC_UPPER_BOUND else q := by
  intro n
  induction n with
  | zero =>
      intro q h
      rw [pruneGo, if_neg (by omega)]
  | succ m ih =>
      intro q h
      rw [pruneGo]
      by_cases hq : GC_UPPER_BOUND < q.length
      · rw [if_pos hq, if_pos hq]
        have hlen : (sqPopBack q).length = q.length - 1 := by
          simp [sqPopBack]
        rw [ih (sqPopBack q) (by omega)]
        by_cases h2 : GC_UPPER_BOUND < (sqPopBack q).length
        · rw [if_pos h2, sqPopBack, List.dropLast_eq_take, List.take_take]
          congr 1
          omega
        · rw [if_neg h2, sqPopBack, List.dropLast_eq_take]
          congr 1
          omega
      · rw [if_neg hq, if_neg hq]

/-- The pruning loop repeatedly drops the *back* of the heap array: its
result is the first `GC_UPPER_BOUND` array entries whenever the frontier is
over the ceiling, and the untouched frontier otherwise. -/
theorem pruneAll_spec (q : List QElem) :
    pruneAll q = if GC_UPPER_BOUND < q.length then q.take GC_UPPER_BOUND else q :=
  pruneGo_spec q.length q (by omega)

/-!  A concrete over-ceiling frontier on which `pop_back` does not remove
the worst-scoring entry. -/

/-- A fingerprint placeholder for frontier entries in the counterexample. -/
def fpX : Fp := (([], []) : Fp)

theorem sqPush_nil (e : QElem) : sqPush [] e = [e] := by
  rw [sqPush, show ([] : List QElem).length = 0 from rfl, siftUp]
  rfl

theorem getD_append_lt (q r : List QElem) (p : Nat) (h : p < q.length) :
    (q ++ r).getD p qdefault = q.getD p qdefault := by
  simp [List.getD_eq_getElem?_getD, List.getElem?_append, h]

theorem getD_append_self (q : List QElem) (e : QElem) :
    (q ++ [e]).getD q.length qdefault = e := by
  simp [List.getD_eq_getElem?_getD, List.getElem?_append]

/-- A push whose element does not exceed its parent leaves the heap array as
a plain append. -/
theorem sqPush_append (q : List QElem) (e : QElem) (i : Nat) (hi : q.length = i + 1)
    (hp : ptrLess (q.getD (i / 2) qdefault) e = false) :
    sqPush q e = q ++ [e] := by
  rw [sqPush, hi, siftUp]
  have h1 : (q ++ [e]).getD (i / 2) qdefault = q.getD (i / 2) qdefault :=
    getD_append_lt q [e] (i / 2) (by omega)
  have h2 : (q ++ [e]).getD (i + 1) qdefault = e := by
    have := getD_append_self q e
    rw [hi] at this
    exact this
  rw [h1, h2, hp]
  simp

theorem getD_replicate_lt (k p : Nat) (e : QElem) (h : p < k) :
    (List.replicate k e).getD p qdefault = e := by
  simp [List.getD_eq_getElem?_getD, List.getElem?_replicate, h]

/-- Pushing equal-heuristic entries repeatedly never sifts: the heap array
is the push order. -/
theorem foldl_push_replicate (k : Nat) :
    (List.replicate k ((fpX, (10 : Int)) : QElem)).foldl sqPush []
      = List.replicate k ((fpX, (10 : Int)) : QElem) := by
  induction k with
  | zero => rfl
  | succ m ih =>
      rw [List.replicate_succ' m, List.foldl_append, ih]
      cases m with
      | zero =>
          rw [show List.replicate 0 ((fpX, (10 : Int)) : QElem) = [] from rfl,
              List.foldl_cons, List.foldl_nil, sqPush_nil]
          rfl
      | succ n =>
          rw [List.foldl_cons, List.foldl_nil]
          have hp : ptrLess
              ((List.replicate (n + 1) ((fpX, (10 : Int)) : QElem)).getD (n / 2) qdefault)
              ((fpX, (10 : Int)) : QElem) = false := by
            rw [getD_replicate_lt _ _ _ (by omega)]
            decide
          rw [sqPush_append (List.replicate (n + 1) ((fpX, (10 : Int)) : QElem))
                ((fpX, (10 : Int)) : QElem) n (by rw [List.length_replicate]) hp,
              ← List.replicate_succ']

/-- The frontier heap built by pushing 1,048,575 entries of heuristic 10,
then one of heuristic 1, then one of heuristic 5. -/
def c2Queue : List QElem :=
  ((List.replicate 1048575 ((fpX, (10 : Int)) : QElem)
      ++ [(fpX, (1 : Int)), (fpX, (5 : Int))]).foldl sqPush [])

theorem c2Queue_eq :
    c2Queue = List.replicate 1048575 ((fpX, (10 : Int)) : QElem)
      ++ [(fpX, (1 : Int)), (fpX, (5 : Int))] := by
  have hp1 : ptrLess
      ((List.replicate 1048575 ((fpX, (10 : Int)) : QElem)).getD (1048574 / 2) qdefault)
      ((fpX, (1 : Int)) : QElem) = false := by
    rw [getD_replicate_lt _ _ _ (by omega)]
    decide
  have h1 := sqPush_append (List.replicate 1048575 ((fpX, (10 : Int)) : QElem))
    ((fpX, (1 : Int)) : QElem) 1048574 (by rw [List.length_replicate]) hp1
  have hp2 : ptrLess
      ((List.replicate 1048575 ((fpX, (10 : Int)) : QElem)
        ++ [((fpX, (1 : Int)) : QElem)]).getD (1048575 / 2) qdefault)
      ((fpX, (5 : Int)) : QElem) = false := by
    rw [getD_append_lt _ _ _ (by rw [List.length_replicate]; omega),
        getD_replicate_lt _ _ _ (by omega)]
    decide
  have h2 := sqPush_append
    (List.replicate 1048575 ((fpX, (10 : Int)) : QElem) ++ [((fpX, (1 : Int)) : QElem)])
    ((fpX, (5 : Int)) : QElem) 1048575
    (by rw [List.length_append, List.length_replicate]; rfl) hp2
  rw [c2Queue, List.foldl_append, foldl_push_replicate,
      List.foldl_cons, List.foldl_cons, List.foldl_nil, h1, h2,
      List.append_assoc]
  rfl

/-- C2: counterexample.  On this over-ceiling frontier the pruning body
(`search.pop_back()`) removes the back of the heap array — the entry of
heuristic 5 — while an entry of heuristic 1, strictly worse-scoring, is in
the frontier and is still there afterwards.  So the removal is not of the
worst-scoring (minimum-heuristic) entry. -/
theorem getLastD_concat (l : List QElem) (a : QElem) :
    ∀ d, (l ++ [a]).getLastD d = a := by
  induction l with
  | nil => intro d; rfl
  | cons x xs ih =>
      intro d
      rw [List.cons_append, List.getLastD_cons]
      exact ih x

theorem c2_pop_back_not_minimum :
    GC_UPPER_BOUND < c2Queue.length ∧
    c2Queue.getLastD qdefault = (fpX, (5 : Int)) ∧
    ((fpX, (1 : Int)) : QElem) ∈ c2Queue ∧
    ((fpX, (1 : Int)) : QElem) ∈ sqPopBack c2Queue ∧
    (1 : Int) < 5 := by
  have hassoc : List.replicate 1048575 ((fpX, (10 : Int)) : QElem)
        ++ [(fpX, (1 : Int)), (fpX, (5 : Int))]
      = (List.replicate 1048575 ((fpX, (10 : Int)) : QElem)
        ++ [((fpX, (1 : Int)) : QElem)]) ++ [((fpX, (5 : Int)) : QElem)] :=
    (List.append_assoc (List.replicate 1048575 ((fpX, (10 : Int)) : QElem))
      [((fpX, (1 : Int)) : QElem)] [((fpX, (5 : Int)) : QElem)]).symm
  refine ⟨?_, ?_, ?_, ?_, by norm_num⟩
  · rw [c2Queue_eq, List.length_append, List.length_replicate]
    decide
  · rw [c2Queue_eq, hassoc]
    exact getLastD_concat _ _ _
  · rw [c2Queue_eq]
    exact List.mem_append_right _ (List.mem_cons_self _ _)
  · rw [c2Queue_eq, sqPopBack, hassoc, List.dropLast_concat]
    exact List.mem_append_right _ (List.mem_cons_self _ _)

/-!  Moves, their rendering, and the inflated presentation board. -/

/-- A move record (`struct Move`): source/destination are card byte values,
or one of the negative `Place` sentinels; `count` is always 1 here. -/
structure Move where
  source : Int
  dest : Int
  count : Int
deriving DecidableEq

/-- `Move::Place::CASCADE`. -/
def placeCASCADE : Int := -3

/-- `Move::Place::RESERVE`. -/
def placeRESERVE : Int := -2

/-- `Move::Place::FOUNDATION`. -/
def placeFOUNDATION : Int := -1

/-- `Move::kGameStartMove` (all-zero record). -/
def kGameStartMove : Move := ⟨0, 0, 0⟩

/-- `Move::place(CascadeView)`: the empty-cascade sentinel, or the byte of
the cascade's top card. -/
def movePlace (b : Board) (i : Nat) : Int :=
  if b.casLen i = 0 then placeCASCADE else ((b.cascade_back i).v : Int)

/-- The empty string (named so defaults need no literal at use sites). -/
def emptyStr : String := ""

/-- The `names` table of `Card::str`. -/
def faceNames : List String :=
  ["ERR", "Ace", "Two", "Three", "Four", "Five", "Six", "Seven",
   "Eight", "Nine", "Ten", "Jack", "Queen", "King"]

/-- The `suits` table of `Card::str`. -/
def suitNames : List String := ["Spades", "Hearts", "Diamonds", "Clubs"]

/-- `Card::str`. -/
def Card.str (c : Card) : String :=
  if c.face = 0 then "Empty"
  else faceNames.getD c.face emptyStr ++ " of " ++ suitNames.getD c.suit emptyStr

/-- `Move::name`. -/
def moveName (place : Int) : String :=
  if place = placeCASCADE then "an empty cascade"
  else if place = placeRESERVE then "an empty reserve"
  else if place = placeFOUNDATION then "the foundation"
  else "the " ++ Card.str ⟨place.toNat⟩

/-- `Move::str`. -/
def Move.str (m : Move) : String :=
  "Move " ++ moveName m.source ++ " onto " ++ moveName m.dest

/-- The presentation board (`struct FluffyBoard`). -/
structure FluffyBoard where
  reserve : List Card
  foundation : List Card
  cascades : List (List Card)
deriving DecidableEq

/-- The cascade-walking loop of `Board::inflate`. -/
def inflateCascades (cards : List Card) : Nat → List Nat → List (List Card)
  | _, [] => []
  | i, c :: ds => (cards.drop i).take (c - i) :: inflateCascades cards (max i c + 1) ds

/-- `Board::inflate`: rebuild the presentation board; a nonzero foundation
counter becomes the card of face `counter % 13`, or king when that is 0. -/
def Board.inflate (b : Board) : FluffyBoard :=
  { foundation := (List.range 4).map (fun i =>
      if b.foundation.getD i 0 ≠ 0 then
        mkCard (if b.foundation.getD i 0 % 13 = 0 then 13 else b.foundation.getD i 0 % 13) i
      else card0)
    cascades := inflateCascades b.cards 0 b.cascade_divs
    reserve := b.reserve }

/-- `struct MoveDescription`: the rendered move and the inflated post-move
board. -/
structure MoveDescription where
  action : String
  result : FluffyBoard
deriving DecidableEq

/-- `MoveList`. -/
abbrev MoveList : Type := List MoveDescription

/-!  The move graph (`MoveGraph`, an `unordered_set` of `SearchBoard`s keyed
by `Hash`/`BasicallyEqual`) and `visit`. -/

/-- The per-node state of a `SearchBoard`: the board plus the mutable search
metadata.  The `previous` pointer is modeled as the predecessor's
fingerprint key (null for the root). -/
structure SNode where
  board : Board
  previous : Option Fp
  action_taken : Move
  depth : Nat
  heuristic : Int
deriving DecidableEq

/-- The visited set. -/
abbrev MoveGraph : Type := List SNode

/-- Set-lookup by the de-duplication equality (`BasicallyEqual`). -/
def graphFind? (g : MoveGraph) (b : Board) : Option SNode :=
  g.find? (fun n => BasicallyEqual n.board b)

/-- Dereference a predecessor pointer: find the node with this fingerprint. -/
def graphFindFp (g : MoveGraph) (fp : Fp) : Option SNode :=
  g.find? (fun n => decide (fingerprint n.board = fp))

/-- In-place mutation of the graph node that `BasicallyEqual`-matches `b`
(the `ins.first->… = …` writes of `visit`). -/
def graphUpdate (g : MoveGraph) (b : Board) (f : SNode → SNode) : MoveGraph :=
  match g with
  | [] => []
  | n :: ns =>
      if BasicallyEqual n.board b then f n :: ns else n :: graphUpdate ns b f

/-- The heuristic write `board.heuristic = board.calc_heuristic()` at the
top of `visit`. -/
def setHeur (n : SNode) : SNode :=
  { n with heuristic := calc_heuristic n.board n.depth }

/-- `visit`: insert the node into the graph.  On a fresh insertion the node
is appended to `dest` (the successor list).  On a duplicate, the code
dereferences `board.previous` and relaxes the stored node's depth and
predecessor — and nothing else — when `previous->depth + 1` is strictly
smaller than the stored depth; otherwise the duplicate is discarded. -/
def visit (dest : List SNode) (n : SNode) (g : MoveGraph) :
    List SNode × MoveGraph :=
  match graphFind? g n.board with
  | none => (dest ++ [setHeur n], g ++ [setHeur n])
  | some old =>
      match n.previous with
      | none => (dest, g)
      | some pfp =>
          match graphFindFp g pfp with
          | none => (dest, g)
          | some p =>
              if p.depth + 1 < old.depth then
                (dest,
                 graphUpdate g n.board
                   (fun o => { o with depth := p.depth + 1, previous := n.previous }))
              else (dest, g)

/-!  Successor generation (`possible_moves`). -/

/-- Construction of a successor `SearchBoard`: predecessor pointer, the
generating move, depth one past the predecessor's, heuristic zeroed (it is
computed inside `visit`). -/
def mkChild (p : SNode) (mv : Move) (b : Board) : SNode :=
  { board := b, previous := some (fingerprint p.board), action_taken := mv,
    depth := p.depth + 1, heuristic := 0 }

/-- `reserve_to_tableau` at the `SearchBoard` level. -/
def reserve_to_tableau_S (p : SNode) (r c : Nat) : SNode :=
  mkChild p ⟨((p.board.reserve.getD r card0).v : Int), movePlace p.board c, 1⟩
    (reserve_to_tableau p.board r c)

/-- `tableaux_move` at the `SearchBoard` level. -/
def tableaux_move_S (p : SNode) (s d : Nat) : SNode :=
  mkChild p ⟨((p.board.cascade_back s).v : Int), movePlace p.board d, 1⟩
    (tableaux_move p.board s d)

/-- `tableau_to_reserve` at the `SearchBoard` level. -/
def tableau_to_reserve_S (p : SNode) (s : Nat) : SNode :=
  mkChild p ⟨((p.board.cascade_back s).v : Int), placeRESERVE, 1⟩
    (tableau_to_reserve p.board s)

/-- `tableau_to_foundation` at the `SearchBoard` level. -/
def tableau_to_foundation_S (p : SNode) (s : Nat) : SNode :=
  mkChild p ⟨((p.board.cascade_back s).v : Int), placeFOUNDATION, 1⟩
    (tableau_to_foundation p.board s)

/-- `foundation_to_tableau` at the `SearchBoard` level. -/
def foundation_to_tableau_S (p : SNode) (f c : Nat) : SNode :=
  mkChild p ⟨((mkCard (p.board.foundation.getD f 0) f).v : Int), movePlace p.board c, 1⟩
    (foundation_to_tableau p.board f c)

/-- `reserve_to_foundation` at the `SearchBoard` level. -/
def reserve_to_foundation_S (p : SNode) (r : Nat) : SNode :=
  mkChild p ⟨((p.board.reserve.getD r card0).v : Int), placeFOUNDATION, 1⟩
    (reserve_to_foundation p.board r)

/-- A guarded `visit` call site. -/
def visitIf (cond : Bool) (n : SNode) (st : List SNode × MoveGraph) :
    List SNode × MoveGraph :=
  if cond then visit st.1 n st.2 else st

/-- The body of the outer cascade loop of `possible_moves`: reserve-to-this-
cascade moves, then — unless `cascade_empty(i)` (the compiled, buggy
predicate) short-circuits the iteration — cascade-to-cascade moves out of
`i`, a reserve drop, a foundation move, and foundation pull-downs onto `i`. -/
def expandCascade (p : SNode) (st : List SNode × MoveGraph) (i : Nat) :
    List SNode × MoveGraph :=
  let st := (List.range 4).foldl
    (fun st j => visitIf (reserve_to_tableau_valid p.board j i)
      (reserve_to_tableau_S p j i) st) st
  if p.board.cascade_empty i then st
  else
    let st := (List.range 8).foldl
      (fun st j => visitIf (tableaux_move_valid p.board i j)
        (tableaux_move_S p i j) st) st
    let st := visitIf (!p.board.reserve_full) (tableau_to_reserve_S p i) st
    let st := visitIf (foundation_can_accept p.board (p.board.cascade_back i))
      (tableau_to_foundation_S p i) st
    (List.range 4).foldl
      (fun st j => visitIf (foundation_to_tableau_valid p.board j i)
        (foundation_to_tableau_S p j i) st) st

/-- `possible_moves`: enumerate all candidates in the source's order,
`visit` each, and return the newly inserted successors with the updated
graph. -/
def possible_moves (p : SNode) (g : MoveGraph) : List SNode × MoveGraph :=
  let st := (List.range 8).foldl (expandCascade p) ([], g)
  (List.range 4).foldl
    (fun st i => visitIf (foundation_can_accept p.board (p.board.reserve.getD i card0))
      (reserve_to_foundation_S p i) st) st

/-!  Path reconstruction and the driver loop. -/

/-- One `MoveDescription{b->action_taken, *b}` entry. -/
def mkDescription (n : SNode) : MoveDescription :=
  ⟨n.action_taken.str, n.board.inflate⟩

/-- The collection loop of `describeMoves` read off the graph: from the
winning node, follow non-null `previous` fingerprints, collecting the
winning node first.  Fuel bounds the walk (the chain of an acyclic graph is
shorter than the graph; the C loop simply runs until a null pointer). -/
def backCollect (g : MoveGraph) : Nat → SNode → List MoveDescription
  | 0, _ => []
  | (fuel + 1), n =>
      match n.previous with
      | none => []
      | some pfp =>
          mkDescription n ::
            (match graphFindFp g pfp with
             | none => []
             | some p => backCollect g fuel p)

/-- `describeMoves`: collect backwards, then reverse. -/
def describeMoves (g : MoveGraph) (w : SNode) : MoveList :=
  (backCollect g (g.length + 1) w).reverse

/-- The push phase of one driver iteration: push every returned successor
(and only those) onto the frontier. -/
def pushMoves (q : List QElem) (moves : List SNode) : List QElem :=
  moves.foldl (fun qq n => sqPush qq (fingerprint n.board, n.heuristic)) q

/-- The pruning phase of one driver iteration: the
`while (search.size() > GC_UPPER_BOUND) search.pop_back();` loop touches
only the frontier; the move graph is not consulted or modified. -/
def prunePhase (st : List QElem × MoveGraph) : List QElem × MoveGraph :=
  (pruneAll st.1, st.2)

/-- The `while (!search.empty())` loop of `solve`, with explicit fuel (the C
loop iterates until a win or exhaustion; fuel only truncates longer runs and
every theorem below is independent of its value).  Per iteration: read the
top node, return the reconstructed path if it is won, otherwise expand it,
pop it, push the new successors, and prune. -/
def solveLoop : Nat → List QElem → MoveGraph → MoveList
  | 0, _, _ => []
  | (fuel + 1), q, g =>
      if q.isEmpty then []
      else
        match graphFindFp g (sqTop q).1 with
        | none => []
        | some node =>
            if node.board.is_won then describeMoves g node
            else
              let mg := possible_moves node g
              let q2 := pushMoves (sqPop q) mg.1
              let st := prunePhase (q2, mg.2)
              solveLoop fuel st.1 st.2

/-- `solve`: seed the graph and frontier with the root (heuristic 0, as the
`SearchBoard(board)` constructor leaves it) and run the loop. -/
def solve (game : Board) (fuel : Nat) : MoveList :=
  solveLoop fuel [(fingerprint game, 0)]
    [{ board := game, previous := none, action_taken := kGameStartMove,
       depth := 0, heuristic := 0 }]

/-- The exit-code logic at the end of `main`: 1 when the move list is empty
("Solution could not be found."), 0 otherwise.  (Exit 2, a file that could
not be opened, is outside the model.) -/
def mainExitCode (winning_moves : MoveList) : Nat :=
  if winning_moves.isEmpty then 1 else 0

/-!  Theorems about the driver: pruning (C2 amended, C9 amended), `visit`
(C5), path reconstruction (C4), and the already-won exit path (C1). -/

/-- C2 (amended): whenever the frontier exceeds `GC_UPPER_BOUND`, the
driver's pruning phase repeatedly removes the *last entry of the heap
array* — a leaf, not in general the worst-scoring entry (see
`c2_pop_back_not_minimum`) — leaving exactly the first `GC_UPPER_BOUND`
array entries; and it never touches the visited set, so every node of the
move graph (in particular a dropped board's) is still present afterwards. -/
theorem c2_prune_drops_back (q : List QElem) (g : MoveGraph) :
    prunePhase (q, g)
      = (if GC_UPPER_BOUND < q.length then q.take GC_UPPER_BOUND else q, g) ∧
    (∀ n, n ∈ g → n ∈ (prunePhase (q, g)).2) := by
  constructor
  · rw [prunePhase, pruneAll_spec]
  · intro n h
    exact h

/-- A tiny node used by driver witnesses. -/
def c2Node : SNode :=
  { board := c3WitnessBoard, previous := none, action_taken := kGameStartMove,
    depth := 0, heuristic := 0 }

/-- C2 (amended) witness: a graph node survives the pruning phase. -/
theorem c2_prune_drops_back_witness : c2Node ∈ (prunePhase ([], [c2Node])).2 :=
  (c2_prune_drops_back [] [c2Node]).2 c2Node (List.mem_singleton.mpr rfl)

/-- C9 (amended): the pruning loop changes the frontier exactly when its
size exceeds `GC_UPPER_BOUND = 1,048,576` — not 1,200,000. -/
theorem c9_prune_threshold :
    GC_UPPER_BOUND = 1048576 ∧
    ∀ q : List QElem, pruneAll q ≠ q ↔ 1048576 < q.length := by
  have hgc : GC_UPPER_BOUND = 1048576 := by decide
  refine ⟨hgc, ?_⟩
  intro q
  rw [pruneAll_spec]
  by_cases h : GC_UPPER_BOUND < q.length
  · rw [if_pos h]
    constructor
    · intro _
      omega
    · intro _ heq
      have hl := congrArg List.length heq
      rw [List.length_take] at hl
      omega
  · rw [if_neg h]
    constructor
    · intro hne
      exact absurd rfl hne
    · intro hlen
      omega

theorem graphFind?_graphUpdate (b : Board) (f : SNode → SNode)
    (hf : ∀ o, (f o).board = o.board) :
    ∀ g : MoveGraph,
      graphFind? (graphUpdate g b f) b = (graphFind? g b).map f := by
  intro g
  induction g with
  | nil => rfl
  | cons n ns ih =>
      by_cases h : BasicallyEqual n.board b = true
      · calc graphFind? (graphUpdate (n :: ns) b f) b
            = graphFind? (f n :: ns) b := by rw [graphUpdate, if_pos h]
          _ = some (f n) := by
              rw [graphFind?, List.find?_cons_of_pos _ (by simpa [hf] using h)]
          _ = Option.map f (some n) := rfl
          _ = Option.map f (graphFind? (n :: ns) b) := by
              rw [graphFind?, List.find?_cons_of_pos _ (by simpa using h)]
      · calc graphFind? (graphUpdate (n :: ns) b f) b
            = graphFind? (n :: graphUpdate ns b f) b := by rw [graphUpdate, if_neg h]
          _ = graphFind? (graphUpdate ns b f) b := by
              rw [graphFind?, List.find?_cons_of_neg _ (by simpa using h)]
              rfl
          _ = Option.map f (graphFind? ns b) := ih
          _ = Option.map f (graphFind? (n :: ns) b) := by
              rw [show graphFind? (n :: ns) b = graphFind? ns b from by
                rw [graphFind?, List.find?_cons_of_neg _ (by simpa using h)]
                rfl]

/-- C5: complete case analysis of `visit`.  A fresh fingerprint is inserted
and appended to the successor list; a duplicate whose new path (predecessor
depth + 1) is strictly shorter has exactly its stored depth and predecessor
overwritten — the stored heuristic is kept — and is *not* added to the
successor list (hence never re-pushed, as the driver pushes exactly the
returned list); any other duplicate changes nothing. -/
theorem c5_visit_characterization (dest : List SNode) (n : SNode) (g : MoveGraph) :
    (graphFind? g n.board = none →
      visit dest n g = (dest ++ [setHeur n], g ++ [setHeur n])) ∧
    (∀ old, graphFind? g n.board = some old →
      (n.previous = none → visit dest n g = (dest, g)) ∧
      (∀ pfp p, n.previous = some pfp → graphFindFp g pfp = some p →
        (p.depth + 1 < old.depth →
          (visit dest n g).1 = dest ∧
          graphFind? (visit dest n g).2 n.board
            = some { old with depth := p.depth + 1, previous := n.previous }) ∧
        (¬ (p.depth + 1 < old.depth) → visit dest n g = (dest, g)))) := by
  constructor
  · intro h
    simp only [visit, h]
  · intro old hold
    constructor
    · intro hp
      simp only [visit, hold, hp]
    · intro pfp p hp hfp
      constructor
      · intro hlt
        have hv : visit dest n g
            = (dest, graphUpdate g n.board
                (fun o => { o with depth := p.depth + 1, previous := n.previous })) := by
          simp only [visit, hold, hp, hfp, if_pos hlt]
        rw [hv]
        refine ⟨rfl, ?_⟩
        rw [graphFind?_graphUpdate n.board
              (fun o => { o with depth := p.depth + 1, previous := n.previous })
              (fun o => rfl) g,
            hold]
        rfl
      · intro hge
        simp only [visit, hold, hp, hfp, if_neg hge]

/-- The relaxation scenario used to witness C5: a parent at depth 1, a
stored duplicate at depth 5, and an incoming shorter path. -/
def c5P : SNode :=
  { board := c3WitnessBoard, previous := none, action_taken := kGameStartMove,
    depth := 1, heuristic := 0 }

/-- The stored node the duplicate collides with. -/
def c5O : SNode :=
  { board := c10Board, previous := none, action_taken := kGameStartMove,
    depth := 5, heuristic := 7 }

/-- The incoming duplicate successor with the shorter path. -/
def c5N : SNode :=
  { board := c10Board, previous := some (fingerprint c3WitnessBoard),
    action_taken := kGameStartMove, depth := 2, heuristic := 0 }

/-- The two-node graph for the witness. -/
def c5G : MoveGraph := [c5P, c5O]

/-- C5 witness: the relaxation case at concrete inputs — the successor list
stays empty and the stored node keeps its heuristic while depth and
predecessor are overwritten. -/
theorem c5_visit_characterization_witness :
    (visit [] c5N c5G).1 = [] ∧
    graphFind? (visit [] c5N c5G).2 c5N.board
      = some { c5O with depth := c5P.depth + 1, previous := c5N.previous } :=
  (((c5_visit_characterization [] c5N c5G).2 c5O (by decide)).2
    (fingerprint c3WitnessBoard) c5P rfl (by decide)).1 (by decide)

/-!  Path reconstruction on a predecessor chain (C4). -/

/-- The predecessor-pointer structure hanging off a winning node, as
dereferenced at reconstruction time: the root (null `previous`), or a node
with its generating move, board, and *stored* depth. -/
inductive SChain where
  | root (b : Board)
  | step (prev : SChain) (mv : Move) (b : Board) (d : Nat)

/-- The stored depth field of the node. -/
def SChain.depthStored : SChain → Nat
  | .root _ => 0
  | .step _ _ _ d => d

/-- The collection loop of `describeMoves`: walk from the winning node while
`previous` is non-null, pushing `MoveDescription{b->action_taken, *b}`. -/
def chainCollect : SChain → List MoveDescription
  | .root _ => []
  | .step prev mv b _ => (⟨mv.str, b.inflate⟩ : MoveDescription) :: chainCollect prev

/-- `describeMoves` on the chain: collect, then reverse. -/
def describeMovesChain (w : SChain) : MoveList := (chainCollect w).reverse

/-- The order the spec claims: the pairs from the first move after the root
up to the winning move. -/
def forwardList : SChain → MoveList
  | .root _ => []
  | .step prev mv b _ => forwardList prev ++ [(⟨mv.str, b.inflate⟩ : MoveDescription)]

/-- Depth-consistency along the chain: each stored depth is the
predecessor's plus one — exactly what `visit` writes both at insertion
(`depth = prev->depth + 1` in the constructor) and at relaxation (depth and
predecessor overwritten together). -/
def SChain.consistent : SChain → Prop
  | .root _ => True
  | .step prev _ _ d => d = prev.depthStored + 1 ∧ prev.consistent

/-- C4: on every depth-consistent winning chain, `describeMoves` returns the
(move description, post-move board) pairs in order from the first move after
the root to the winning move, and its length is the winning node's stored
depth. -/
theorem c4_describeMoves_chain (w : SChain) (hw : w.consistent) :
    describeMovesChain w = forwardList w ∧
    (describeMovesChain w).length = w.depthStored := by
  revert hw
  induction w with
  | root b => intro _; exact ⟨rfl, rfl⟩
  | step prev mv b d ih =>
      intro hw
      obtain ⟨hd, hc⟩ := hw
      obtain ⟨ih1, ih2⟩ := ih hc
      constructor
      · rw [describeMovesChain, chainCollect, List.reverse_cons, forwardList, ← ih1,
            describeMovesChain]
      · rw [describeMovesChain, chainCollect, List.reverse_cons, List.length_append]
        rw [describeMovesChain] at ih2
        rw [ih2, SChain.depthStored, hd]
        rfl

/-- A two-node chain for the C4 witness. -/
def c4Chain : SChain := .step (.root c3WitnessBoard) kGameStartMove c10Board 1

/-- C4 witness: the reconstruction on the concrete chain. -/
theorem c4_describeMoves_chain_witness :
    describeMovesChain c4Chain = forwardList c4Chain ∧
    (describeMovesChain c4Chain).length = c4Chain.depthStored :=
  c4_describeMoves_chain c4Chain ⟨rfl, trivial⟩

/-!  Depth-consistency is NOT maintained by the search: `visit` relaxes only
the re-visited node, so a descendant inserted earlier keeps its stale stored
depth.  The following graph is produced purely by `visit` calls on
`mkChild`-shaped successors, in an expansion order a heuristic-first frontier
permits: the root spawns `A` and `P`; the chain `A → A2 → B → W` is expanded
first (storing depths 1, 2, 3, 4); then `P` (depth 1) is expanded and its
successor collides with `B`, relaxing `B` to depth 2 with predecessor `P` —
while the winning node `W` still stores depth 4.  Reconstruction then walks
`W → B → P → root`, three moves, not four. -/

def c4bR : Board := ⟨[], [⟨1⟩], [0, 0, 0, 0], []⟩

def c4bA : Board := ⟨[], [⟨2⟩], [0, 0, 0, 0], []⟩

def c4bP : Board := ⟨[], [⟨3⟩], [0, 0, 0, 0], []⟩

def c4bA2 : Board := ⟨[], [⟨4⟩], [0, 0, 0, 0], []⟩

def c4bB : Board := ⟨[], [⟨5⟩], [0, 0, 0, 0], []⟩

def c4bW : Board := ⟨[], [⟨6⟩], [13, 13, 13, 13], []⟩

def c4Root : SNode := ⟨c4bR, none, kGameStartMove, 0, 0⟩

def c4g0 : MoveGraph := [c4Root]

def c4s1 : List SNode × MoveGraph :=
  visit [] (mkChild c4Root kGameStartMove c4bA) c4g0

def c4s2 : List SNode × MoveGraph :=
  visit c4s1.1 (mkChild c4Root kGameStartMove c4bP) c4s1.2

def c4nA : SNode := (graphFindFp c4s2.2 (fingerprint c4bA)).getD c4Root

def c4s3 : List SNode × MoveGraph :=
  visit [] (mkChild c4nA kGameStartMove c4bA2) c4s2.2

def c4nA2 : SNode := (graphFindFp c4s3.2 (fingerprint c4bA2)).getD c4Root

def c4s4 : List SNode × MoveGraph :=
  visit [] (mkChild c4nA2 kGameStartMove c4bB) c4s3.2

def c4nB : SNode := (graphFindFp c4s4.2 (fingerprint c4bB)).getD c4Root

def c4s5 : List SNode × MoveGraph :=
  visit [] (mkChild c4nB kGameStartMove c4bW) c4s4.2

def c4nP : SNode := (graphFindFp c4s5.2 (fingerprint c4bP)).getD c4Root

def c4s6 : List SNode × MoveGraph :=
  visit [] (mkChild c4nP kGameStartMove c4bB) c4s5.2

def c4wNode : SNode := (graphFindFp c4s6.2 (fingerprint c4bW)).getD c4Root

/-- C4 counterexample: in the `visit`-built graph above the winning node
stores depth 4, but `describeMoves` walks its current predecessor chain and
returns only 3 moves — the length does not equal the stored depth once a
relaxation has gone through an interior node of the chain. -/
theorem c4_stale_depth_counterexample :
    c4wNode.board.is_won = true ∧
    c4wNode.depth = 4 ∧
    (describeMoves c4s6.2 c4wNode).length = 3 ∧
    ¬ ((describeMoves c4s6.2 c4wNode).length = c4wNode.depth) :=
  ⟨by decide, by decide, by decide, by decide⟩

/-!  The already-won exit path (C1). -/

/-- On an already-won initial board, the first loop iteration reports the
win and reconstruction from the root (null `previous`) yields the empty move
list. -/
theorem solve_on_won_board (game : Board) (fuel : Nat) (h : game.is_won = true) :
    solve game (fuel + 1) = [] := by
  have hfind : graphFindFp
      [{ board := game, previous := none, action_taken := kGameStartMove,
         depth := 0, heuristic := 0 }]
      (sqTop [(fingerprint game, 0)]).1
      = some { board := game, previous := none, action_taken := kGameStartMove,
               depth := 0, heuristic := 0 } := by
    rw [graphFindFp, List.find?_cons_of_pos _ (by simp [sqTop, List.getD_cons_zero])]
  simp only [solve, solveLoop, List.isEmpty_cons, Bool.false_eq_true, if_false, hfind, h,
    if_true]
  rfl

/-- The all-won board: every foundation at 13, nothing anywhere else. -/
def wonBoard : Board :=
  { reserve := [card0, card0, card0, card0]
    cards := List.replicate 60 card0
    foundation := [13, 13, 13, 13]
    cascade_divs := [0, 1, 2, 3, 4, 5, 6, 7] }

/-- C1: on an already-won deal, `solve` returns the *empty* move list (the
win is detected on the first iteration and the root's predecessor chain is
empty), and `main`'s exit logic then returns 1 — not the claimed success
code 0 — because it maps every empty move list to "Solution could not be
found". -/
theorem c1_already_won_exit1 :
    wonBoard.is_won = true ∧
    (∀ fuel, solve wonBoard (fuel + 1) = []) ∧
    mainExitCode [] = 1 ∧ mainExitCode [] ≠ 0 :=
  ⟨by decide, fun fuel => solve_on_won_board wonBoard fuel (by decide),
   by decide, by decide⟩

/-!  Claim C7: card conservation.  The well-formedness invariant a board
carries through the search couples the divider geometry of the bank with the
full-deck multiset (every deck card exactly once across cascades, reserve,
and the foundation prefixes). -/

/-- The nonzero cards of the bank (the cascade contents). -/
def bankNZ (b : Board) : List Card := b.cards.filter Card.truthy

/-- The occupied reserve slots. -/
def resNZ (b : Board) : List Card := b.reserve.filter Card.truthy

/-- The cards a foundation counter stands for: faces `1..counter` of suit
`i`. -/
def fndSeg (b : Board) (i : Nat) : List Card :=
  (List.range (b.foundation.getD i 0)).map (fun j => mkCard (j + 1) i)

/-- All foundation-held cards. -/
def fndPrefix (b : Board) : List Card :=
  fndSeg b 0 ++ fndSeg b 1 ++ fndSeg b 2 ++ fndSeg b 3

/-- Well-formedness of a search board: field lengths, strictly increasing
dividers, the bank's zero bytes sitting exactly on the dividers and past the
last one, the conserved 52-card count, and the full-deck multiset. -/
structure Inv (b : Board) : Prop where
  hr : b.reserve.length = 4
  hc : b.cards.length = 60
  hf : b.foundation.length = 4
  hd : b.cascade_divs.length = 8
  chain : ∀ i, i < 7 → b.cascade_end i < b.cascade_end (i + 1)
  zs : ∀ p, p < 60 →
    (((b.cards.getD p card0).truthy = true) ↔
      (p < b.cascade_end 7 ∧ ∀ i, i < 8 → p ≠ b.cascade_end i))
  cnt : b.cardCount = 52
  perm : (bankNZ b ++ resNZ b ++ fndPrefix b).Perm deckList

theorem idxMap_length (f : Nat → Nat → Nat) :
    ∀ (ds : List Nat) (i0 : Nat), (idxMap f i0 ds).length = ds.length := by
  intro ds
  induction ds with
  | nil => intro i0; rfl
  | cons d ds ih => intro i0; rw [idxMap, List.length_cons, List.length_cons, ih]

theorem idxMap_getD (f : Nat → Nat → Nat) :
    ∀ (ds : List Nat) (i0 j : Nat), j < ds.length →
      (idxMap f i0 ds).getD j 0 = f (i0 + j) (ds.getD j 0) := by
  intro ds
  induction ds with
  | nil => intro i0 j h; exact absurd h (by simp)
  | cons d ds ih =>
      intro i0 j h
      cases j with
      | zero => simp [idxMap]
      | succ m =>
          rw [idxMap, List.getD_cons_succ, List.getD_cons_succ,
              ih (i0 + 1) m (by simpa using h)]
          congr 1
          omega

/-- `totalCas` written out. -/
theorem totalCas_explicit (b : Board) :
    b.totalCas = b.casLen 0 + b.casLen 1 + b.casLen 2 + b.casLen 3 +
      b.casLen 4 + b.casLen 5 + b.casLen 6 + b.casLen 7 := by
  simp [Board.totalCas, List.range_succ]
  ring

/-- The last divider sits after exactly `totalCas` cards and 7 earlier
dividers. -/
theorem div7_eq (b : Board)
    (hchain : ∀ i, i < 7 → b.cascade_end i < b.cascade_end (i + 1)) :
    b.cascade_end 7 = 7 + b.totalCas := by
  have h0 : b.cascade_end 0 < b.cascade_end 1 := hchain 0 (by omega)
  have h1 : b.cascade_end 1 < b.cascade_end 2 := hchain 1 (by omega)
  have h2 : b.cascade_end 2 < b.cascade_end 3 := hchain 2 (by omega)
  have h3 : b.cascade_end 3 < b.cascade_end 4 := hchain 3 (by omega)
  have h4 : b.cascade_end 4 < b.cascade_end 5 := hchain 4 (by omega)
  have h5 : b.cascade_end 5 < b.cascade_end 6 := hchain 5 (by omega)
  have h6 : b.cascade_end 6 < b.cascade_end 7 := hchain 6 (by omega)
  rw [totalCas_explicit]
  simp only [Board.casLen, Board.casBase]
  norm_num
  omega

/-- Strict divider monotonicity. -/
theorem end_strict_mono (b : Board)
    (hchain : ∀ i, i < 7 → b.cascade_end i < b.cascade_end (i + 1)) :
    ∀ i j, i < j → j < 8 → b.cascade_end i < b.cascade_end j := by
  intro i j hij hj
  have hmono := cascade_end_mono b (fun k hk => hchain k (by omega)) i (j - 1 - i)
    (by omega)
  have hlast := hchain (j - 1) (by omega)
  have e1 : i + (j - 1 - i) = j - 1 := by omega
  have e2 : j - 1 + 1 = j := by omega
  rw [e1] at hmono
  rw [e2] at hlast
  omega

/-- Cascade bases never exceed their ends. -/
theorem base_le_end (b : Board)
    (hchain : ∀ i, i < 7 → b.cascade_end i < b.cascade_end (i + 1)) :
    ∀ s, s < 8 → b.casBase s ≤ b.cascade_end s := by
  intro s hs
  rw [Board.casBase]
  by_cases h0 : s = 0
  · simp [h0]
  · rw [if_neg h0]
    have := hchain (s - 1) (by omega)
    have e : s - 1 + 1 = s := by omega
    rw [e] at this
    omega

/-- The total count bounds the last divider: `cascade_end 7 ≤ 59`, with room
to spare when the reserve or foundation holds at least one card. -/
theorem end7_le (b : Board) (hI : Inv b) :
    b.cascade_end 7 = 59 - (b.foundationSum + b.reserveCount) := by
  have hd7 := div7_eq b hI.chain
  have hcnt := hI.cnt
  rw [Board.cardCount] at hcnt
  omega

/-- The bank/divider geometry a board needs for the copy routines to behave:
field lengths, the strictly increasing divider chain, the zero bytes sitting
exactly on the dividers and past the last one, and the last divider in
bounds.  (Everything `Inv` guarantees except the multiset bookkeeping.) -/
structure Geo (b : Board) : Prop where
  hc : b.cards.length = 60
  hd : b.cascade_divs.length = 8
  chain : ∀ i, i < 7 → b.cascade_end i < b.cascade_end (i + 1)
  zs : ∀ p, p < 60 →
    (((b.cards.getD p card0).truthy = true) ↔
      (p < b.cascade_end 7 ∧ ∀ i, i < 8 → p ≠ b.cascade_end i))
  e7 : b.cascade_end 7 ≤ 59

/-- A well-formed board has well-formed geometry. -/
theorem geo_of_inv (b : Board) (hI : Inv b) : Geo b :=
  ⟨hI.hc, hI.hd, hI.chain, hI.zs, by have := end7_le b hI; omega⟩

/-- Non-strict divider monotonicity. -/
theorem end_mono_le (b : Board)
    (hchain : ∀ i, i < 7 → b.cascade_end i < b.cascade_end (i + 1)) :
    ∀ i j, i ≤ j → j < 8 → b.cascade_end i ≤ b.cascade_end j := by
  intro i j hij hj
  rcases Nat.eq_or_lt_of_le hij with h | h
  · rw [h]
  · exact Nat.le_of_lt (end_strict_mono b hchain i j h hj)

/-- The final bank byte is the zero card. -/
theorem cards59_zero (b : Board) (hG : Geo b) : b.cards.getD 59 card0 = card0 := by
  have hz := (hG.zs 59 (by omega))
  have h7 := hG.e7
  have : ¬ ((b.cards.getD 59 card0).truthy = true) := by
    intro h
    have := (hz.mp h).1
    omega
  rcases hcard : b.cards.getD 59 card0 with ⟨v⟩
  rw [hcard] at this
  have hv : v = 0 := by
    by_contra hv
    exact this (by simpa [Card.truthy] using hv)
  rw [hv]
  rfl

/-- A nonempty cascade's top card is a real card sitting at `end - 1`. -/
theorem back_truthy (b : Board) (hG : Geo b) (s : Nat) (hs : s < 8)
    (hlen : b.casBase s + 1 ≤ b.cascade_end s) :
    b.cascade_back s = b.cards.getD (b.cascade_end s - 1) card0 ∧
    (b.cascade_back s).truthy = true := by
  have hend_pos : 1 ≤ b.cascade_end s := by
    have := base_le_end b hG.chain s hs
    omega
  have hbdef : b.cascade_back s = b.cards.getD (b.cascade_end s - 1) card0 := by
    simp only [Board.cascade_back]
    rw [if_neg (by omega : ¬ b.cascade_end s = 0)]
  refine ⟨hbdef, ?_⟩
  rw [hbdef]
  have h7 : b.cascade_end s ≤ b.cascade_end 7 := by
    by_cases h : s = 7
    · rw [h]
    · exact Nat.le_of_lt (end_strict_mono b hG.chain s 7 (by omega) (by omega))
  have h59 : b.cascade_end s - 1 < 60 := by
    have := hG.e7
    omega
  apply (hG.zs (b.cascade_end s - 1) h59).mpr
  constructor
  · omega
  · intro i hi hcontra
    by_cases his : i < s
    · have h1 : b.cascade_end i ≤ b.cascade_end (s - 1) := by
        by_cases h : i = s - 1
        · rw [h]
        · exact Nat.le_of_lt (end_strict_mono b hG.chain i (s - 1) (by omega) (by omega))
      have h2 : b.casBase s = b.cascade_end (s - 1) + 1 := by
        rw [Board.casBase, if_neg (by omega)]
      omega
    · by_cases heq : i = s
      · subst heq
        omega
      · have := end_strict_mono b hG.chain s i (by omega) hi
        omega

/-- A false `cascade_empty` (under the compiled out-of-bounds semantics)
implies the cascade really is nonempty. -/
theorem nonempty_of_guard (b : Board) (hG : Geo b) (s : Nat) (hs : s < 8)
    (hg : b.cascade_empty s = false) :
    b.casBase s + 1 ≤ b.cascade_end s := by
  rw [Board.cascade_empty] at hg
  by_cases h0 : s = 0
  · subst h0
    by_cases hz : b.cascade_divs.getD 0 0 = 0
    · rw [if_pos (by rw [hz]; rfl)] at hg
      exact absurd hg (by simp)
    · have hb : 0 + 1 ≤ b.cascade_divs.getD 0 0 := by omega
      have hbase : Board.casBase b 0 = 0 := rfl
      have hend : Board.cascade_end b 0 = b.cascade_divs.getD 0 0 := rfl
      omega
  · have hchain := hG.chain (s - 1) (by omega)
    have e : s - 1 + 1 = s := by omega
    rw [e] at hchain
    have hcond : ¬ ((decide (s = 0) && b.cascade_divs.getD 0 0 == 0) = true) := by
      simp [h0]
    rw [if_neg hcond, if_neg h0] at hg
    have hne : b.cascade_divs.getD s 0 ≠ 1 + b.cascade_divs.getD (s - 1) 0 := by
      simpa using hg
    have hb : b.casBase s = b.cascade_end (s - 1) + 1 := by
      rw [Board.casBase, if_neg h0]
    have he1 : b.cascade_end (s - 1) = b.cascade_divs.getD (s - 1) 0 := rfl
    have he2 : b.cascade_end s = b.cascade_divs.getD s 0 := rfl
    omega

/-!  Positional behavior of the three bank-copy routines. -/

theorem bankInsert_getD (l : List Card) (ce : Nat) (x : Card) (p : Nat)
    (hl : l.length = 60) (hce : ce ≤ 59) :
    (bankInsert l ce x).getD p card0 =
      if p < ce then l.getD p card0
      else if p = ce then x
      else if p ≤ 59 then l.getD (p - 1) card0
      else card0 := by
  have hlen_take : (l.take ce).length = ce := by
    rw [List.length_take]
    omega
  simp only [bankInsert, CARD_BANK_SIZE]
  rw [List.getD_eq_getElem?_getD, List.getElem?_append, hlen_take]
  by_cases h1 : p < ce
  · rw [if_pos h1, List.getElem?_take, if_pos h1, if_pos h1, List.getD_eq_getElem?_getD]
  · rw [if_neg h1, if_neg h1]
    by_cases h2 : p = ce
    · subst h2
      rw [Nat.sub_self, List.getElem?_cons_zero, if_pos rfl]
      rfl
    · rw [if_neg h2]
      have hp : p - ce = (p - ce - 1) + 1 := by omega
      rw [hp, List.getElem?_cons_succ, List.getElem?_take]
      by_cases h3 : p ≤ 59
      · rw [if_pos (by omega : p - ce - 1 < 60 - ce - 1), List.getElem?_drop,
            if_pos h3, List.getD_eq_getElem?_getD]
        congr 2
        omega
      · rw [if_neg (by omega), if_neg h3]
        rfl

theorem bankRemove_getD (l : List Card) (lc p : Nat)
    (hl : l.length = 60) (hlc : lc ≤ 59) :
    (bankRemove l lc).getD p card0 =
      if p < lc then l.getD p card0
      else if p ≤ 58 then l.getD (p + 1) card0
      else card0 := by
  have hlen_take : (l.take lc).length = lc := by
    rw [List.length_take]
    omega
  have hlen_drop : (l.drop (lc + 1)).length = 59 - lc := by
    rw [List.length_drop]
    omega
  have hlen_ab : (l.take lc ++ l.drop (lc + 1)).length = 59 := by
    rw [List.length_append, hlen_take, hlen_drop]
    omega
  simp only [bankRemove]
  rw [List.getD_eq_getElem?_getD, List.getElem?_append, hlen_ab]
  by_cases h1 : p < 59
  · rw [if_pos h1, List.getElem?_append, hlen_take]
    by_cases h2 : p < lc
    · rw [if_pos h2, List.getElem?_take, if_pos h2, if_pos h2, List.getD_eq_getElem?_getD]
    · rw [if_neg h2, if_neg h2, List.getElem?_drop, if_pos (by omega),
          List.getD_eq_getElem?_getD]
      congr 2
      omega
  · rw [if_neg h1, if_neg (by omega), if_neg (by omega)]
    by_cases h3 : p = 59
    · rw [h3]
      rfl
    · have hp : p - 59 = (p - 60) + 1 := by omega
      rw [hp, List.getElem?_cons_succ]
      rfl

theorem bankMove_getD_lt (l : List Card) (dfrom appto p : Nat)
    (hl : l.length = 60) (h1 : dfrom + 1 ≤ appto) (h2 : appto ≤ 60) :
    (bankMove l dfrom (dfrom + 1) appto).getD p card0 =
      if p < dfrom then l.getD p card0
      else if p + 1 < appto then l.getD (p + 1) card0
      else if p + 1 = appto then l.getD dfrom card0
      else l.getD p card0 := by
  have la : (l.take dfrom).length = dfrom := by
    rw [List.length_take]
    omega
  have lb : (slice l (dfrom + 1) appto).length = appto - dfrom - 1 := by
    rw [slice, List.length_take, List.length_drop]
    omega
  have lc' : (slice l dfrom (dfrom + 1)).length = 1 := by
    rw [slice, List.length_take, List.length_drop]
    omega
  have lab : (l.take dfrom ++ slice l (dfrom + 1) appto).length = appto - 1 := by
    rw [List.length_append, la, lb]
    omega
  have labc : ((l.take dfrom ++ slice l (dfrom + 1) appto) ++ slice l dfrom (dfrom + 1)).length
      = appto := by
    rw [List.length_append, lab, lc']
    omega
  have hmove : bankMove l dfrom (dfrom + 1) appto
      = ((l.take dfrom ++ slice l (dfrom + 1) appto) ++ slice l dfrom (dfrom + 1))
        ++ l.drop appto := by
    rw [bankMove, if_pos (by omega)]
  rw [hmove, List.getD_eq_getElem?_getD, List.getElem?_append, labc]
  by_cases hp1 : p < appto
  · rw [if_pos hp1, List.getElem?_append, lab]
    by_cases hp2 : p < appto - 1
    · rw [if_pos hp2, List.getElem?_append, la]
      by_cases hp3 : p < dfrom
      · rw [if_pos hp3, List.getElem?_take, if_pos hp3, if_pos hp3,
            List.getD_eq_getElem?_getD]
      · rw [if_neg hp3, slice, List.getElem?_take, if_pos (by omega),
            List.getElem?_drop, if_neg hp3, if_pos (by omega),
            List.getD_eq_getElem?_getD]
        congr 2
        omega
    · rw [if_neg hp2, slice, List.getElem?_take, if_pos (by omega),
          List.getElem?_drop, if_neg (by omega), if_neg (by omega), if_pos (by omega),
          List.getD_eq_getElem?_getD]
      congr 2
      omega
  · rw [if_neg hp1, List.getElem?_drop, if_neg (by omega), if_neg (by omega),
        if_neg (by omega), List.getD_eq_getElem?_getD]
    congr 2
    omega

theorem bankMove_getD_ge (l : List Card) (dfrom appto p : Nat)
    (hl : l.length = 60) (h1 : appto ≤ dfrom) (h2 : dfrom + 1 ≤ 60) :
    (bankMove l dfrom (dfrom + 1) appto).getD p card0 =
      if p < appto then l.getD p card0
      else if p = appto then l.getD dfrom card0
      else if p ≤ dfrom then l.getD (p - 1) card0
      else l.getD p card0 := by
  have la : (l.take appto).length = appto := by
    rw [List.length_take]
    omega
  have lb : (slice l dfrom (dfrom + 1)).length = 1 := by
    rw [slice, List.length_take, List.length_drop]
    omega
  have lc' : (slice l appto dfrom).length = dfrom - appto := by
    rw [slice, List.length_take, List.length_drop]
    omega
  have lab : (l.take appto ++ slice l dfrom (dfrom + 1)).length = appto + 1 := by
    rw [List.length_append, la, lb]
  have labc : ((l.take appto ++ slice l dfrom (dfrom + 1)) ++ slice l appto dfrom).length
      = dfrom + 1 := by
    rw [List.length_append, lab, lc']
    omega
  have hmove : bankMove l dfrom (dfrom + 1) appto
      = ((l.take appto ++ slice l dfrom (dfrom + 1)) ++ slice l appto dfrom)
        ++ l.drop (dfrom + 1) := by
    rw [bankMove, if_neg (by omega)]
  rw [hmove, List.getD_eq_getElem?_getD, List.getElem?_append, labc]
  by_cases hp1 : p < dfrom + 1
  · rw [if_pos hp1, List.getElem?_append, lab]
    by_cases hp2 : p < appto + 1
    · rw [if_pos hp2, List.getElem?_append, la]
      by_cases hp3 : p < appto
      · rw [if_pos hp3, List.getElem?_take, if_pos hp3, if_pos hp3,
            List.getD_eq_getElem?_getD]
      · have hpe : p = appto := by omega
        rw [if_neg hp3, slice, List.getElem?_take, if_pos (by omega),
            List.getElem?_drop, if_neg hp3, if_pos hpe, List.getD_eq_getElem?_getD]
        congr 2
        omega
    · rw [if_neg hp2, slice, List.getElem?_take, if_pos (by omega),
          List.getElem?_drop, if_neg (by omega), if_neg (by omega), if_pos (by omega),
          List.getD_eq_getElem?_getD]
      congr 2
      omega
  · rw [if_neg hp1, List.getElem?_drop, if_neg (by omega), if_neg (by omega),
        if_neg (by omega), List.getD_eq_getElem?_getD]
    congr 2
    omega

/-!  Multiset bookkeeping for the bank, reserve and foundation updates. -/

theorem splitD {α : Type} (l : List α) (k : Nat) (d : α) (h : k < l.length) :
    l = l.take k ++ l.getD k d :: l.drop (k + 1) := by
  conv_lhs => rw [← List.take_append_drop k l]
  congr 1
  rw [List.drop_eq_getElem_cons h]
  congr 1
  rw [List.getD_eq_getElem?_getD, List.getElem?_eq_getElem h]
  rfl

theorem set_eq_split {α : Type} (l : List α) (k : Nat) (y d : α) (h : k < l.length) :
    l.set k y = l.take k ++ y :: l.drop (k + 1) := by
  induction l generalizing k with
  | nil => exact absurd h (by simp)
  | cons a as ih =>
      cases k with
      | zero => rfl
      | succ m =>
          rw [List.set_cons_succ, List.take_succ_cons, List.drop_succ_cons,
              List.cons_append, ih m (by simpa using h)]

theorem drop59_single (l : List Card) (hl : l.length = 60) :
    l.drop 59 = [l.getD 59 card0] := by
  rw [List.drop_eq_getElem_cons (by omega : 59 < l.length)]
  rw [List.getD_eq_getElem?_getD, List.getElem?_eq_getElem (by omega : 59 < l.length)]
  rw [List.drop_eq_nil_of_le (by omega)]
  rfl

theorem filter_card0_nil : List.filter Card.truthy [card0] = [] := rfl

/-- `bankInsert` adds exactly the appended card to the bank multiset when
the dropped final byte is zero. -/
theorem bankInsert_filter (l : List Card) (ce : Nat) (x : Card)
    (hl : l.length = 60) (hce : ce ≤ 59) (h59 : l.getD 59 card0 = card0)
    (hx : x.truthy = true) :
    ((bankInsert l ce x).filter Card.truthy).Perm
      (x :: l.filter Card.truthy) := by
  have htake : l.take ce ++ (l.drop ce).take (59 - ce) = l.take 59 := by
    rw [← List.take_add (l := l) (m := ce) (n := 59 - ce)]
    congr 1
    omega
  have hperm : (bankInsert l ce x).Perm (x :: l.take 59) := by
    simp only [bankInsert, CARD_BANK_SIZE]
    have h60 : (60 : Nat) - ce - 1 = 59 - ce := by omega
    rw [h60]
    have hmid := @List.perm_middle Card x (l.take ce) ((l.drop ce).take (59 - ce))
    rw [htake] at hmid
    exact hmid
  have hfl : l.filter Card.truthy = (l.take 59).filter Card.truthy := by
    conv_lhs => rw [splitD l 59 card0 (by omega), h59]
    rw [List.filter_append]
    have : List.filter Card.truthy (card0 :: l.drop (59 + 1)) =
        List.filter Card.truthy (l.drop (59 + 1)) := by
      rw [List.filter_cons_of_neg (by decide)]
    rw [this, List.drop_eq_nil_of_le (by omega), List.filter_nil, List.append_nil]
  have := hperm.filter Card.truthy
  rw [List.filter_cons_of_pos hx] at this
  rw [hfl]
  exact this

/-- Removing the card at `lc` takes exactly that card out of the bank
multiset (the appended zero byte is filtered away). -/
theorem bankRemove_filter (l : List Card) (lc : Nat)
    (hl : l.length = 60) (hlc : lc ≤ 59)
    (hx : (l.getD lc card0).truthy = true) :
    (l.filter Card.truthy).Perm
      ((l.getD lc card0) :: (bankRemove l lc).filter Card.truthy) := by
  have hx' : (bankRemove l lc).filter Card.truthy
      = (l.take lc).filter Card.truthy ++ (l.drop (lc + 1)).filter Card.truthy := by
    rw [bankRemove, List.filter_append, List.filter_append, filter_card0_nil,
        List.append_nil]
  have hsplit : l.filter Card.truthy
      = (l.take lc).filter Card.truthy
        ++ (l.getD lc card0) :: (l.drop (lc + 1)).filter Card.truthy := by
    conv_lhs => rw [splitD l lc card0 (by omega)]
    rw [List.filter_append, List.filter_cons_of_pos hx]
  rw [hsplit, hx']
  exact List.perm_middle

theorem slice_split (l : List Card) (a b : Nat) (hab : a ≤ b) (hb : b ≤ l.length) :
    l = l.take a ++ slice l a b ++ l.drop b := by
  conv_lhs => rw [← List.take_append_drop a l]
  rw [List.append_assoc]
  congr 1
  rw [slice]
  conv_lhs => rw [← List.take_append_drop (b - a) (l.drop a)]
  congr 1
  rw [List.drop_drop]
  congr 1
  omega

theorem slice_one (l : List Card) (a : Nat) (h : a < l.length) :
    slice l a (a + 1) = [l.getD a card0] := by
  rw [slice]
  have : a + 1 - a = 1 := by omega
  rw [this]
  rw [List.drop_eq_getElem_cons h]
  rw [List.getD_eq_getElem?_getD, List.getElem?_eq_getElem h]
  rfl

theorem slice_concat (l : List Card) (a b c : Nat) (hab : a ≤ b) (hbc : b ≤ c) :
    slice l a b ++ slice l b c = slice l a c := by
  rw [slice, slice, slice]
  have h1 : c - a = (b - a) + (c - b) := by omega
  rw [h1, List.take_add]
  congr 2
  rw [List.drop_drop]
  congr 1
  omega

/-- `bankMove` is a rearrangement: the bank multiset is unchanged. -/
theorem bankMove_perm (l : List Card) (dfrom appto : Nat)
    (hl : l.length = 60) (hdf : dfrom < 60) (hap : appto ≤ 60) :
    (bankMove l dfrom (dfrom + 1) appto).Perm l := by
  by_cases hcase : dfrom < appto
  · rw [bankMove, if_pos hcase]
    conv_rhs => rw [slice_split l dfrom appto (by omega) (by omega),
                    ← slice_concat l dfrom (dfrom + 1) appto (by omega) (by omega)]
    apply List.Perm.append_right
    rw [List.append_assoc]
    exact List.Perm.append_left _ List.perm_append_comm
  · rw [bankMove, if_neg hcase]
    conv_rhs => rw [slice_split l appto (dfrom + 1) (by omega) (by omega),
                    ← slice_concat l appto dfrom (dfrom + 1) (by omega) (by omega)]
    apply List.Perm.append_right
    rw [List.append_assoc]
    exact List.Perm.append_left _ List.perm_append_comm

/-- Zeroing an occupied slot removes exactly its card from the multiset. -/
theorem set_zero_filter (l : List Card) (k : Nat) (hk : k < l.length)
    (hx : (l.getD k card0).truthy = true) :
    (l.filter Card.truthy).Perm
      ((l.getD k card0) :: (l.set k card0).filter Card.truthy) := by
  have hset : (l.set k card0).filter Card.truthy
      = (l.take k).filter Card.truthy ++ (l.drop (k + 1)).filter Card.truthy := by
    rw [set_eq_split l k card0 card0 hk, List.filter_append,
        List.filter_cons_of_neg (by decide)]
  have hsplit : l.filter Card.truthy
      = (l.take k).filter Card.truthy
        ++ (l.getD k card0) :: (l.drop (k + 1)).filter Card.truthy := by
    conv_lhs => rw [splitD l k card0 hk]
    rw [List.filter_append, List.filter_cons_of_pos hx]
  rw [hsplit, hset]
  exact List.perm_middle

/-- `reserve_card` on a non-full reserve adds exactly the new card. -/
theorem reserve_card_filter (x : Card) (hx : x.truthy = true) :
    ∀ l : List Card, l.all Card.truthy = false →
      ((reserve_card l x).filter Card.truthy).Perm (x :: l.filter Card.truthy) := by
  intro l
  induction l with
  | nil => intro h; exact absurd h (by simp)
  | cons r rs ih =>
      intro h
      by_cases hr : r.truthy = true
      · have hrs : rs.all Card.truthy = false := by
          rw [List.all_cons, hr] at h
          simpa using h
        rw [reserve_card, if_neg (by simp [hr])]
        rw [List.filter_cons_of_pos hr, List.filter_cons_of_pos hr]
        exact ((ih hrs).cons r).trans (List.Perm.swap x r _)
      · rw [reserve_card, if_pos (by simp [hr])]
        rw [List.filter_cons_of_pos hx, List.filter_cons_of_neg (by simpa using hr)]

theorem getD_set_self (f : List Nat) (k w : Nat) (h : k < f.length) :
    (f.set k w).getD k 0 = w := by
  simp [List.getD_eq_getElem?_getD, List.getElem?_set, h]

theorem getD_set_ne (f : List Nat) (k w j : Nat) (h : ¬ (k = j)) :
    (f.set k w).getD j 0 = f.getD j 0 := by
  simp [List.getD_eq_getElem?_getD, List.getElem?_set, h]

theorem sum_set_getD (f : List Nat) (k w : Nat) (h : k < f.length) :
    (f.set k w).sum + f.getD k 0 = f.sum + w := by
  rw [set_eq_split f k w 0 h]
  conv_rhs => rw [splitD f k 0 h]
  rw [List.sum_append, List.sum_append, List.sum_cons, List.sum_cons]
  omega

theorem getD_le_sum (f : List Nat) (k : Nat) (h : k < f.length) :
    f.getD k 0 ≤ f.sum := by
  conv_rhs => rw [splitD f k 0 h]
  rw [List.sum_append, List.sum_cons]
  omega

theorem bankInsert_length (l : List Card) (ce : Nat) (x : Card)
    (hl : l.length = 60) (hce : ce ≤ 59) :
    (bankInsert l ce x).length = 60 := by
  simp only [bankInsert, CARD_BANK_SIZE, List.length_append, List.length_cons,
    List.length_take, List.length_drop]
  omega

theorem bankRemove_length (l : List Card) (lc : Nat)
    (hl : l.length = 60) (hlc : lc ≤ 59) :
    (bankRemove l lc).length = 60 := by
  simp only [bankRemove, List.length_append, List.length_take, List.length_drop,
    List.length_cons, List.length_nil]
  omega

theorem bankMove_length (l : List Card) (dfrom appto : Nat)
    (hl : l.length = 60) (h2 : appto ≤ 60) (h3 : dfrom < 60) :
    (bankMove l dfrom (dfrom + 1) appto).length = 60 := by
  rw [bankMove]
  split_ifs with h <;>
    simp only [slice, List.length_append, List.length_take, List.length_drop] <;>
    omega

theorem reserve_card_length (x : Card) :
    ∀ l : List Card, (reserve_card l x).length = l.length := by
  intro l
  induction l with
  | nil => rfl
  | cons r rs ih =>
      rw [reserve_card]
      by_cases hr : (!r.truthy) = true
      · rw [if_pos hr]
        rfl
      · rw [if_neg hr, List.length_cons, List.length_cons, ih]

theorem getD_mem_card (l : List Card) (p : Nat) (h : p < l.length) :
    l.getD p card0 ∈ l := by
  rw [List.getD_eq_getElem?_getD, List.getElem?_eq_getElem h]
  exact List.getElem_mem h

theorem list_eq_of_getD {α : Type} (l₁ l₂ : List α) (d : α) (n : Nat)
    (h₁ : l₁.length = n) (h₂ : l₂.length = n)
    (h : ∀ p, p < n → l₁.getD p d = l₂.getD p d) : l₁ = l₂ := by
  apply List.ext_getElem (by omega)
  intro p hp1 hp2
  have hh := h p (by omega)
  rw [List.getD_eq_getElem?_getD, List.getD_eq_getElem?_getD,
      List.getElem?_eq_getElem hp1, List.getElem?_eq_getElem hp2] at hh
  simpa using hh

/-!  Geometry of `copy_from_and_append`: dividers at or past the target shift
up by one, the appended card lands at the old cascade end, and the
zero-structure follows. -/

theorem append_end (b : Board) (c : Nat) (x : Card) (hd8 : b.cascade_divs.length = 8) :
    ∀ i, i < 8 → (copy_from_and_append b c x).cascade_end i =
      if i < c then b.cascade_end i else b.cascade_end i + 1 := by
  intro i hi
  simp only [Board.cascade_end, copy_from_and_append]
  rw [idxMap_getD _ b.cascade_divs 0 i (by rw [hd8]; omega)]
  simp only [Nat.zero_add]

theorem append_chain (b : Board) (c : Nat) (x : Card)
    (hd8 : b.cascade_divs.length = 8)
    (hchain : ∀ i, i < 7 → b.cascade_end i < b.cascade_end (i + 1)) :
    ∀ i, i < 7 → (copy_from_and_append b c x).cascade_end i <
      (copy_from_and_append b c x).cascade_end (i + 1) := by
  intro i hi
  rw [append_end b c x hd8 i (by omega), append_end b c x hd8 (i + 1) (by omega)]
  have := hchain i hi
  split_ifs <;> omega

theorem append_zs (b : Board) (hG : Geo b) (c : Nat) (hc8 : c < 8) (x : Card)
    (hx : x.truthy = true) :
    ∀ p, p < 60 →
      (((copy_from_and_append b c x).cards.getD p card0).truthy = true ↔
        (p < (copy_from_and_append b c x).cascade_end 7 ∧
         ∀ i, i < 8 → p ≠ (copy_from_and_append b c x).cascade_end i)) := by
  intro p hp
  have hce7 : b.cascade_end c ≤ b.cascade_end 7 :=
    end_mono_le b hG.chain c 7 (by omega) (by omega)
  have hce : b.cascade_end c ≤ 59 := by have := hG.e7; omega
  have hend7 : (copy_from_and_append b c x).cascade_end 7 = b.cascade_end 7 + 1 := by
    rw [append_end b c x hG.hd 7 (by omega), if_neg (by omega)]
  have hcards : (copy_from_and_append b c x).cards
      = bankInsert b.cards (b.cascade_end c) x := rfl
  rw [hcards, bankInsert_getD b.cards (b.cascade_end c) x p hG.hc hce, hend7]
  by_cases h1 : p < b.cascade_end c
  · rw [if_pos h1]
    have hzs := hG.zs p hp
    constructor
    · intro ht
      rcases hzs.mp ht with ⟨ha, hb'⟩
      refine ⟨by omega, ?_⟩
      intro i hi
      rw [append_end b c x hG.hd i hi]
      by_cases hic : i < c
      · rw [if_pos hic]
        exact hb' i hi
      · rw [if_neg hic]
        have := end_mono_le b hG.chain c i (by omega) hi
        omega
    · intro hcon
      rcases hcon with ⟨ha, hb'⟩
      apply hzs.mpr
      refine ⟨by omega, ?_⟩
      intro i hi
      have hbi := hb' i hi
      rw [append_end b c x hG.hd i hi] at hbi
      by_cases hic : i < c
      · rw [if_pos hic] at hbi
        exact hbi
      · have := end_mono_le b hG.chain c i (by omega) hi
        omega
  · rw [if_neg h1]
    by_cases h2 : p = b.cascade_end c
    · rw [if_pos h2]
      constructor
      · intro _
        refine ⟨by omega, ?_⟩
        intro i hi
        rw [append_end b c x hG.hd i hi]
        by_cases hic : i < c
        · have := end_strict_mono b hG.chain i c hic (by omega)
          rw [if_pos hic]
          omega
        · rw [if_neg hic]
          have := end_mono_le b hG.chain c i (by omega) hi
          omega
      · intro _
        exact hx
    · rw [if_neg h2, if_pos (by omega : p ≤ 59)]
      have hzs := hG.zs (p - 1) (by omega)
      constructor
      · intro ht
        rcases hzs.mp ht with ⟨ha, hb'⟩
        refine ⟨by omega, ?_⟩
        intro i hi
        rw [append_end b c x hG.hd i hi]
        by_cases hic : i < c
        · rw [if_pos hic]
          have := end_strict_mono b hG.chain i c hic (by omega)
          omega
        · rw [if_neg hic]
          have hbi := hb' i hi
          omega
      · intro hcon
        rcases hcon with ⟨ha, hb'⟩
        apply hzs.mpr
        refine ⟨by omega, ?_⟩
        intro i hi
        have hbi := hb' i hi
        rw [append_end b c x hG.hd i hi] at hbi
        by_cases hic : i < c
        · rw [if_pos hic] at hbi
          have := end_strict_mono b hG.chain i c hic (by omega)
          omega
        · rw [if_neg hic] at hbi
          omega

theorem append_totalCas (b : Board) (hG : Geo b) (c : Nat) (hc8 : c < 8) (x : Card) :
    (copy_from_and_append b c x).totalCas = b.totalCas + 1 := by
  have h1 := div7_eq b hG.chain
  have h2 := div7_eq (copy_from_and_append b c x) (append_chain b c x hG.hd hG.chain)
  have h3 : (copy_from_and_append b c x).cascade_end 7 = b.cascade_end 7 + 1 := by
    rw [append_end b c x hG.hd 7 (by omega), if_neg (by omega)]
  omega

theorem append_geo (b : Board) (hG : Geo b) (c : Nat) (hc8 : c < 8) (x : Card)
    (hx : x.truthy = true) (hroom : b.cascade_end 7 ≤ 58) :
    Geo (copy_from_and_append b c x) := by
  refine ⟨?_, ?_, append_chain b c x hG.hd hG.chain, append_zs b hG c hc8 x hx, ?_⟩
  · show (bankInsert b.cards (b.cascade_end c) x).length = 60
    apply bankInsert_length b.cards _ x hG.hc
    have := end_mono_le b hG.chain c 7 (by omega) (by omega)
    have := hG.e7
    omega
  · show (idxMap _ 0 b.cascade_divs).length = 8
    rw [idxMap_length]
    exact hG.hd
  · rw [append_end b c x hG.hd 7 (by omega), if_neg (by omega)]
    omega

theorem append_bank_perm (b : Board) (hG : Geo b) (c : Nat) (hc8 : c < 8) (x : Card)
    (hx : x.truthy = true) :
    (bankNZ (copy_from_and_append b c x)).Perm (x :: bankNZ b) := by
  have hce : b.cascade_end c ≤ 59 := by
    have := end_mono_le b hG.chain c 7 (by omega) (by omega)
    have := hG.e7
    omega
  show ((bankInsert b.cards (b.cascade_end c) x).filter Card.truthy).Perm _
  exact bankInsert_filter b.cards _ x hG.hc hce (cards59_zero b hG) hx

/-!  Geometry of `copy_from_but_remove`: dividers at or past the source shift
down by one, the source cascade's back card leaves the bank. -/

theorem remove_end (b : Board) (c : Nat) (hd8 : b.cascade_divs.length = 8) :
    ∀ i, i < 8 → (copy_from_but_remove b c).cascade_end i =
      if i < c then b.cascade_end i else b.cascade_end i - 1 := by
  intro i hi
  simp only [Board.cascade_end, copy_from_but_remove]
  rw [idxMap_getD _ b.cascade_divs 0 i (by rw [hd8]; omega)]
  simp only [Nat.zero_add]

theorem remove_chain (b : Board) (c : Nat) (hc8 : c < 8)
    (hd8 : b.cascade_divs.length = 8)
    (hchain : ∀ i, i < 7 → b.cascade_end i < b.cascade_end (i + 1))
    (hne : b.casBase c + 1 ≤ b.cascade_end c) :
    ∀ i, i < 7 → (copy_from_but_remove b c).cascade_end i <
      (copy_from_but_remove b c).cascade_end (i + 1) := by
  intro i hi
  rw [remove_end b c hd8 i (by omega), remove_end b c hd8 (i + 1) (by omega)]
  have h1 := hchain i hi
  by_cases hic : i + 1 < c
  · rw [if_pos (by omega), if_pos hic]
    exact h1
  · by_cases hic2 : i < c
    · have hceq : c = i + 1 := by omega
      rw [if_pos hic2, if_neg hic]
      have hb : b.casBase c = b.cascade_end (c - 1) + 1 := by
        rw [Board.casBase, if_neg (by omega)]
      have he : b.cascade_end (c - 1) = b.cascade_end i := by
        have hci : c - 1 = i := by omega
        rw [hci]
      have hc2 : b.cascade_end c = b.cascade_end (i + 1) := by rw [hceq]
      omega
    · rw [if_neg hic, if_neg hic2]
      have := end_mono_le b hchain c i (by omega) (by omega)
      have := base_le_end b hchain c hc8
      omega

theorem remove_zs (b : Board) (hG : Geo b) (c : Nat) (hc8 : c < 8)
    (hne : b.casBase c + 1 ≤ b.cascade_end c) :
    ∀ p, p < 60 →
      (((copy_from_but_remove b c).cards.getD p card0).truthy = true ↔
        (p < (copy_from_but_remove b c).cascade_end 7 ∧
         ∀ i, i < 8 → p ≠ (copy_from_but_remove b c).cascade_end i)) := by
  intro p hp
  have hecpos : 1 ≤ b.cascade_end c := by
    have := base_le_end b hG.chain c hc8
    omega
  have hce7 : b.cascade_end c ≤ b.cascade_end 7 :=
    end_mono_le b hG.chain c 7 (by omega) (by omega)
  have h59 := hG.e7
  have hlc : b.cascade_end c - 1 ≤ 59 := by omega
  have hend7 : (copy_from_but_remove b c).cascade_end 7 = b.cascade_end 7 - 1 := by
    rw [remove_end b c hG.hd 7 (by omega), if_neg (by omega)]
  have hcards : (copy_from_but_remove b c).cards
      = bankRemove b.cards (b.cascade_end c - 1) := rfl
  rw [hcards, bankRemove_getD b.cards (b.cascade_end c - 1) p hG.hc hlc, hend7]
  by_cases h1 : p < b.cascade_end c - 1
  · rw [if_pos h1]
    have hzs := hG.zs p hp
    constructor
    · intro ht
      rcases hzs.mp ht with ⟨ha, hb'⟩
      refine ⟨by omega, ?_⟩
      intro i hi
      rw [remove_end b c hG.hd i hi]
      by_cases hic : i < c
      · rw [if_pos hic]
        exact hb' i hi
      · rw [if_neg hic]
        have := end_mono_le b hG.chain c i (by omega) hi
        omega
    · intro hcon
      rcases hcon with ⟨ha, hb'⟩
      apply hzs.mpr
      refine ⟨by omega, ?_⟩
      intro i hi
      by_cases hic : i < c
      · have hbi := hb' i hi
        rw [remove_end b c hG.hd i hi, if_pos hic] at hbi
        exact hbi
      · have := end_mono_le b hG.chain c i (by omega) hi
        omega
  · rw [if_neg h1]
    by_cases h2 : p ≤ 58
    · rw [if_pos h2]
      have hzs := hG.zs (p + 1) (by omega)
      constructor
      · intro ht
        rcases hzs.mp ht with ⟨ha, hb'⟩
        refine ⟨by omega, ?_⟩
        intro i hi
        rw [remove_end b c hG.hd i hi]
        by_cases hic : i < c
        · rw [if_pos hic]
          have hbc := hb' c (by omega)
          have := end_strict_mono b hG.chain i c hic (by omega)
          omega
        · rw [if_neg hic]
          have hbi := hb' i hi
          have := end_mono_le b hG.chain c i (by omega) hi
          omega
      · intro hcon
        rcases hcon with ⟨ha, hb'⟩
        apply hzs.mpr
        refine ⟨by omega, ?_⟩
        intro i hi
        by_cases hic : i < c
        · have := end_strict_mono b hG.chain i c hic (by omega)
          omega
        · have hbi := hb' i hi
          rw [remove_end b c hG.hd i hi, if_neg hic] at hbi
          have := end_mono_le b hG.chain c i (by omega) hi
          omega
    · rw [if_neg h2]
      constructor
      · intro ht
        exact absurd ht (by decide)
      · intro hcon
        rcases hcon with ⟨ha, hb'⟩
        exfalso
        omega

theorem remove_totalCas (b : Board) (hG : Geo b) (c : Nat) (hc8 : c < 8)
    (hne : b.casBase c + 1 ≤ b.cascade_end c) :
    b.totalCas = (copy_from_but_remove b c).totalCas + 1 := by
  have h1 := div7_eq b hG.chain
  have h2 := div7_eq (copy_from_but_remove b c)
    (remove_chain b c hc8 hG.hd hG.chain hne)
  have h3 : (copy_from_but_remove b c).cascade_end 7 = b.cascade_end 7 - 1 := by
    rw [remove_end b c hG.hd 7 (by omega), if_neg (by omega)]
  have h4 : 1 ≤ b.cascade_end c := by
    have := base_le_end b hG.chain c hc8
    omega
  have h5 : b.cascade_end c ≤ b.cascade_end 7 :=
    end_mono_le b hG.chain c 7 (by omega) (by omega)
  omega

theorem remove_geo (b : Board) (hG : Geo b) (c : Nat) (hc8 : c < 8)
    (hne : b.casBase c + 1 ≤ b.cascade_end c) :
    Geo (copy_from_but_remove b c) := by
  refine ⟨?_, ?_, remove_chain b c hc8 hG.hd hG.chain hne, remove_zs b hG c hc8 hne, ?_⟩
  · show (bankRemove b.cards (b.cascade_end c - 1)).length = 60
    apply bankRemove_length b.cards _ hG.hc
    have := end_mono_le b hG.chain c 7 (by omega) (by omega)
    have := hG.e7
    omega
  · show (idxMap _ 0 b.cascade_divs).length = 8
    rw [idxMap_length]
    exact hG.hd
  · rw [remove_end b c hG.hd 7 (by omega), if_neg (by omega)]
    have := hG.e7
    omega

theorem remove_bank_perm (b : Board) (hG : Geo b) (c : Nat) (hc8 : c < 8)
    (hne : b.casBase c + 1 ≤ b.cascade_end c) :
    (bankNZ b).Perm (b.cascade_back c :: bankNZ (copy_from_but_remove b c)) := by
  rcases back_truthy b hG c hc8 hne with ⟨hbdef, htr⟩
  have hlc : b.cascade_end c - 1 ≤ 59 := by
    have := end_mono_le b hG.chain c 7 (by omega) (by omega)
    have := hG.e7
    omega
  have hper := bankRemove_filter b.cards (b.cascade_end c - 1) hG.hc hlc
    (by rw [← hbdef]; exact htr)
  rw [← hbdef] at hper
  exact hper

/-!  `copy_from_but_move` of a single card decomposes into a removal followed
by an insertion of the removed card, which transports the geometry lemmas to
`tableaux_move`. -/

theorem board_eq_of_fields {a b : Board} (h1 : a.reserve = b.reserve)
    (h2 : a.cards = b.cards) (h3 : a.foundation = b.foundation)
    (h4 : a.cascade_divs = b.cascade_divs) : a = b := by
  cases a
  cases b
  rw [Board.mk.injEq]
  exact ⟨h1, h2, h3, h4⟩

theorem bankMove_decomp_lt (l : List Card) (dfrom appto : Nat) (hl : l.length = 60)
    (h1 : dfrom + 1 ≤ appto) (h2 : appto ≤ 60) :
    bankMove l dfrom (dfrom + 1) appto =
      bankInsert (bankRemove l dfrom) (appto - 1) (l.getD dfrom card0) := by
  have hrl := bankRemove_length l dfrom hl (by omega)
  apply list_eq_of_getD _ _ card0 60
    (bankMove_length l dfrom appto hl h2 (by omega))
    (bankInsert_length (bankRemove l dfrom) (appto - 1) _ hrl (by omega))
  intro p hp
  rw [bankMove_getD_lt l dfrom appto p hl h1 h2,
      bankInsert_getD (bankRemove l dfrom) (appto - 1) (l.getD dfrom card0) p hrl
        (by omega)]
  by_cases c1 : p < dfrom
  · rw [if_pos c1, if_pos (show p < appto - 1 by omega),
        bankRemove_getD l dfrom p hl (by omega), if_pos c1]
  · rw [if_neg c1]
    by_cases c2 : p + 1 < appto
    · rw [if_pos c2, if_pos (show p < appto - 1 by omega),
          bankRemove_getD l dfrom p hl (by omega), if_neg c1,
          if_pos (show p ≤ 58 by omega)]
    · rw [if_neg c2]
      by_cases c3 : p + 1 = appto
      · rw [if_pos c3, if_neg (show ¬ p < appto - 1 by omega),
            if_pos (show p = appto - 1 by omega)]
      · rw [if_neg c3, if_neg (show ¬ p < appto - 1 by omega),
            if_neg (show ¬ p = appto - 1 by omega), if_pos (show p ≤ 59 by omega),
            bankRemove_getD l dfrom (p - 1) hl (by omega),
            if_neg (show ¬ p - 1 < dfrom by omega),
            if_pos (show p - 1 ≤ 58 by omega)]
        congr 2
        omega

theorem bankMove_decomp_ge (l : List Card) (dfrom appto : Nat) (hl : l.length = 60)
    (h1 : appto ≤ dfrom) (h2 : dfrom ≤ 59) :
    bankMove l dfrom (dfrom + 1) appto =
      bankInsert (bankRemove l dfrom) appto (l.getD dfrom card0) := by
  have hrl := bankRemove_length l dfrom hl (by omega)
  apply list_eq_of_getD _ _ card0 60
    (bankMove_length l dfrom appto hl (by omega) (by omega))
    (bankInsert_length (bankRemove l dfrom) appto _ hrl (by omega))
  intro p hp
  rw [bankMove_getD_ge l dfrom appto p hl h1 (by omega),
      bankInsert_getD (bankRemove l dfrom) appto (l.getD dfrom card0) p hrl (by omega)]
  by_cases c1 : p < appto
  · rw [if_pos c1, if_pos c1, bankRemove_getD l dfrom p hl (by omega),
        if_pos (show p < dfrom by omega)]
  · rw [if_neg c1, if_neg c1]
    by_cases c2 : p = appto
    · rw [if_pos c2, if_pos c2]
    · rw [if_neg c2, if_neg c2, if_pos (show p ≤ 59 by omega),
          bankRemove_getD l dfrom (p - 1) hl (by omega)]
      by_cases c3 : p ≤ dfrom
      · rw [if_pos c3, if_pos (show p - 1 < dfrom by omega)]
      · rw [if_neg c3, if_neg (show ¬ p - 1 < dfrom by omega),
            if_pos (show p - 1 ≤ 58 by omega)]
        congr 2
        omega

theorem tt_decomp (b : Board) (hG : Geo b) (s d : Nat) (hs8 : s < 8) (hd8 : d < 8)
    (hsd : s ≠ d) (hne : b.casBase s + 1 ≤ b.cascade_end s) :
    tableaux_move b s d =
      copy_from_and_append (copy_from_but_remove b s) d (b.cascade_back s) := by
  have hspos : 1 ≤ b.cascade_end s := by
    have := base_le_end b hG.chain s hs8
    omega
  rcases back_truthy b hG s hs8 hne with ⟨hbdef, htr⟩
  have he7 := hG.e7
  have hse7 : b.cascade_end s ≤ b.cascade_end 7 :=
    end_mono_le b hG.chain s 7 (by omega) (by omega)
  have hde7 : b.cascade_end d ≤ b.cascade_end 7 :=
    end_mono_le b hG.chain d 7 (by omega) (by omega)
  apply board_eq_of_fields
  · rfl
  · show bankMove b.cards (b.cascade_end s - 1) (b.cascade_end s) (b.cascade_end d)
        = bankInsert (bankRemove b.cards (b.cascade_end s - 1))
            ((copy_from_but_remove b s).cascade_end d) (b.cascade_back s)
    rw [hbdef, remove_end b s hG.hd d (by omega)]
    generalize hq : b.cascade_end s - 1 = q
    have hq2 : b.cascade_end s = q + 1 := by omega
    rw [hq2]
    by_cases hlt : s < d
    · have hsd' : b.cascade_end s < b.cascade_end d :=
        end_strict_mono b hG.chain s d hlt (by omega)
      rw [if_neg (by omega : ¬ d < s)]
      exact bankMove_decomp_lt b.cards q (b.cascade_end d) hG.hc (by omega) (by omega)
    · have hds : d < s := by omega
      have hsd' : b.cascade_end d < b.cascade_end s :=
        end_strict_mono b hG.chain d s hds (by omega)
      rw [if_pos hds]
      exact bankMove_decomp_ge b.cards q (b.cascade_end d) hG.hc (by omega) (by omega)
  · rfl
  · apply list_eq_of_getD _ _ 0 8
    · show (idxMap _ 0 b.cascade_divs).length = 8
      rw [idxMap_length]
      exact hG.hd
    · show (idxMap _ 0 (idxMap _ 0 b.cascade_divs)).length = 8
      rw [idxMap_length, idxMap_length]
      exact hG.hd
    · intro i hi
      show (idxMap (fun dn v => (if s ≤ dn then v - 1 else v) +
              (if d ≤ dn then 1 else 0)) 0 b.cascade_divs).getD i 0
          = (idxMap (fun dn v => if dn < d then v else v + 1) 0
              (idxMap (fun dn v => if dn < s then v else v - 1) 0
                b.cascade_divs)).getD i 0
      rw [idxMap_getD _ _ 0 i (by rw [hG.hd]; omega),
          idxMap_getD _ _ 0 i (by rw [idxMap_length, hG.hd]; omega),
          idxMap_getD _ _ 0 i (by rw [hG.hd]; omega)]
      simp only [Nat.zero_add]
      have hspos : 1 ≤ b.cascade_end s := by
        have := base_le_end b hG.chain s hs8
        omega
      have hei : b.cascade_divs.getD i 0 = b.cascade_end i := rfl
      by_cases hsi : s ≤ i
      · have hm := end_mono_le b hG.chain s i hsi (by omega)
        split_ifs <;> omega
      · split_ifs <;> omega

/-!  Deck facts and the foundation-prefix bookkeeping: the full-deck multiset
pins every foundation counter at or below 13 and forces an accepted card to
be exactly the next consecutive card of its suit. -/

theorem mkCard_suit (f s : Nat) (hs : s < 4) : (mkCard f s).suit = s := by
  simp only [mkCard, Card.suit]
  omega

theorem deck_card_facts :
    ∀ c ∈ deckList,
      c.suit < 4 ∧ 1 ≤ c.face ∧ c.face ≤ 13 ∧ mkCard c.face c.suit = c := by
  decide

theorem deck_suit_count :
    ∀ s, s < 4 → deckList.countP (fun c => c.suit == s) = 13 := by
  decide

theorem fndSeg_countP (b : Board) (s : Nat) (hs : s < 4) :
    (fndSeg b s).countP (fun c => c.suit == s) = b.foundation.getD s 0 := by
  have hall : ∀ c ∈ fndSeg b s, (fun c => c.suit == s) c = true := by
    intro c hc
    rw [fndSeg] at hc
    rcases List.mem_map.mp hc with ⟨j, hj, hje⟩
    rw [← hje]
    show ((mkCard (j + 1) s).suit == s) = true
    rw [mkCard_suit (j + 1) s hs]
    simp
  rw [List.countP_eq_length.mpr hall, fndSeg, List.length_map, List.length_range]

theorem countP_total (b : Board) (hI : Inv b) (s : Nat) (hs : s < 4) :
    (bankNZ b).countP (fun c => c.suit == s) +
      (resNZ b).countP (fun c => c.suit == s) +
      (fndPrefix b).countP (fun c => c.suit == s) = 13 := by
  have hp := hI.perm.countP_eq (fun c => c.suit == s)
  rw [List.countP_append, List.countP_append, deck_suit_count s hs] at hp
  exact hp

theorem fndPrefix_count_ge (b : Board) (s : Nat) (hs : s < 4) :
    b.foundation.getD s 0 ≤ (fndPrefix b).countP (fun c => c.suit == s) := by
  have hseg := fndSeg_countP b s hs
  have hexp : (fndPrefix b).countP (fun c => c.suit == s)
      = (fndSeg b 0).countP (fun c => c.suit == s) +
        (fndSeg b 1).countP (fun c => c.suit == s) +
        (fndSeg b 2).countP (fun c => c.suit == s) +
        (fndSeg b 3).countP (fun c => c.suit == s) := by
    rw [fndPrefix, List.countP_append, List.countP_append, List.countP_append]
  interval_cases s <;> omega

theorem fnd_le_13 (b : Board) (hI : Inv b) (s : Nat) (hs : s < 4) :
    b.foundation.getD s 0 ≤ 13 := by
  have h1 := countP_total b hI s hs
  have h2 := fndPrefix_count_ge b s hs
  omega

theorem accept_next (b : Board) (hI : Inv b) (y : Card)
    (hmem : y ∈ bankNZ b ∨ y ∈ resNZ b)
    (hacc : foundation_can_accept b y = true) :
    y.suit < 4 ∧ y.face = b.foundation.getD y.suit 0 + 1 ∧
      mkCard y.face y.suit = y ∧ b.foundation.getD y.suit 0 ≤ 12 := by
  have hydeck : y ∈ deckList := by
    apply (hI.perm.mem_iff).mp
    rcases hmem with h | h
    · exact List.mem_append.mpr (Or.inl (List.mem_append.mpr (Or.inl h)))
    · exact List.mem_append.mpr (Or.inl (List.mem_append.mpr (Or.inr h)))
  rcases deck_card_facts y hydeck with ⟨hs4, hf1, hf13, hmk⟩
  have ht := countP_total b hI y.suit hs4
  have hcnt1 : 1 ≤ (bankNZ b).countP (fun c => c.suit == y.suit) +
      (resNZ b).countP (fun c => c.suit == y.suit) := by
    rcases hmem with h | h
    · have hpos : 0 < (bankNZ b).countP (fun c => c.suit == y.suit) :=
        List.countP_pos.mpr ⟨y, h, by simp⟩
      omega
    · have hpos : 0 < (resNZ b).countP (fun c => c.suit == y.suit) :=
        List.countP_pos.mpr ⟨y, h, by simp⟩
      omega
  have hge := fndPrefix_count_ge b y.suit hs4
  have hfle : b.foundation.getD y.suit 0 ≤ 12 := by omega
  have hacc' : (y.truthy &&
      ((b.foundation.getD y.suit 0 + 1) % 13 == y.face % 13)) = true := hacc
  have hguard : (b.foundation.getD y.suit 0 + 1) % 13 = y.face % 13 := by
    simp only [Bool.and_eq_true] at hacc'
    simpa using hacc'.2
  have hface : y.face = b.foundation.getD y.suit 0 + 1 := by omega
  exact ⟨hs4, hface, hmk, hfle⟩

theorem fndPrefix_inc (b b' : Board) (su : Nat) (hsu : su < 4)
    (hf : b.foundation.length = 4)
    (hb' : b'.foundation = b.foundation.set su (b.foundation.getD su 0 + 1)) :
    (fndPrefix b').Perm
      (mkCard (b.foundation.getD su 0 + 1) su :: fndPrefix b) := by
  have hself : b'.foundation.getD su 0 = b.foundation.getD su 0 + 1 := by
    rw [hb']
    exact getD_set_self b.foundation su _ (by omega)
  have hoth : ∀ j, ¬ (su = j) → b'.foundation.getD j 0 = b.foundation.getD j 0 := by
    intro j hj
    rw [hb']
    exact getD_set_ne b.foundation su _ j hj
  have hsegsu : fndSeg b' su
      = fndSeg b su ++ [mkCard (b.foundation.getD su 0 + 1) su] := by
    rw [fndSeg, fndSeg, hself, List.range_succ, List.map_append]
    simp only [List.map_cons, List.map_nil]
  have hseg : ∀ j, ¬ (su = j) → fndSeg b' j = fndSeg b j := by
    intro j hj
    rw [fndSeg, fndSeg, hoth j hj]
  interval_cases su
  · rw [fndPrefix, fndPrefix, hsegsu, hseg 1 (by omega), hseg 2 (by omega),
        hseg 3 (by omega)]
    exact (((List.perm_append_singleton _ _).append_right _).append_right
      _).append_right _
  · rw [fndPrefix, fndPrefix, hsegsu, hseg 0 (by omega), hseg 2 (by omega),
        hseg 3 (by omega)]
    have he : fndSeg b 0 ++ (fndSeg b 1 ++ [mkCard (b.foundation.getD 1 0 + 1) 1])
        = fndSeg b 0 ++ fndSeg b 1 ++ [mkCard (b.foundation.getD 1 0 + 1) 1] := by
      simp [List.append_assoc]
    rw [he]
    exact ((List.perm_append_singleton _ _).append_right _).append_right _
  · rw [fndPrefix, fndPrefix, hsegsu, hseg 0 (by omega), hseg 1 (by omega),
        hseg 3 (by omega)]
    have he : fndSeg b 0 ++ fndSeg b 1 ++
          (fndSeg b 2 ++ [mkCard (b.foundation.getD 2 0 + 1) 2])
        = fndSeg b 0 ++ fndSeg b 1 ++ fndSeg b 2 ++
          [mkCard (b.foundation.getD 2 0 + 1) 2] := by
      simp [List.append_assoc]
    rw [he]
    exact (List.perm_append_singleton _ _).append_right _
  · rw [fndPrefix, fndPrefix, hsegsu, hseg 0 (by omega), hseg 1 (by omega),
        hseg 2 (by omega)]
    have he : fndSeg b 0 ++ fndSeg b 1 ++ fndSeg b 2 ++
          (fndSeg b 3 ++ [mkCard (b.foundation.getD 3 0 + 1) 3])
        = fndSeg b 0 ++ fndSeg b 1 ++ fndSeg b 2 ++ fndSeg b 3 ++
          [mkCard (b.foundation.getD 3 0 + 1) 3] := by
      simp [List.append_assoc]
    rw [he]
    exact List.perm_append_singleton _ _

theorem fndPrefix_dec (b b' : Board) (su : Nat) (hsu : su < 4)
    (hf : b.foundation.length = 4) (hpos : 1 ≤ b.foundation.getD su 0)
    (hb' : b'.foundation = b.foundation.set su (b.foundation.getD su 0 - 1)) :
    (fndPrefix b).Perm
      (mkCard (b.foundation.getD su 0) su :: fndPrefix b') := by
  have hself : b'.foundation.getD su 0 = b.foundation.getD su 0 - 1 := by
    rw [hb']
    exact getD_set_self b.foundation su _ (by omega)
  have hoth : ∀ j, ¬ (su = j) → b'.foundation.getD j 0 = b.foundation.getD j 0 := by
    intro j hj
    rw [hb']
    exact getD_set_ne b.foundation su _ j hj
  have hsegsu : fndSeg b su
      = fndSeg b' su ++ [mkCard (b.foundation.getD su 0) su] := by
    have h2 : b.foundation.getD su 0 = (b.foundation.getD su 0 - 1) + 1 := by omega
    rw [fndSeg, fndSeg, hself]
    conv_lhs => rw [h2, List.range_succ, List.map_append]
    simp only [List.map_cons, List.map_nil]
    have h3 : mkCard (b.foundation.getD su 0 - 1 + 1) su
        = mkCard (b.foundation.getD su 0) su := by
      rw [← h2]
    rw [h3]
  have hseg : ∀ j, ¬ (su = j) → fndSeg b j = fndSeg b' j := by
    intro j hj
    rw [fndSeg, fndSeg, hoth j hj]
  interval_cases su
  · rw [fndPrefix, fndPrefix, hsegsu, hseg 1 (by omega), hseg 2 (by omega),
        hseg 3 (by omega)]
    exact (((List.perm_append_singleton _ _).append_right _).append_right
      _).append_right _
  · rw [fndPrefix, fndPrefix, hsegsu, hseg 0 (by omega), hseg 2 (by omega),
        hseg 3 (by omega)]
    have he : fndSeg b' 0 ++ (fndSeg b' 1 ++ [mkCard (b.foundation.getD 1 0) 1])
        = fndSeg b' 0 ++ fndSeg b' 1 ++ [mkCard (b.foundation.getD 1 0) 1] := by
      simp [List.append_assoc]
    rw [he]
    exact ((List.perm_append_singleton _ _).append_right _).append_right _
  · rw [fndPrefix, fndPrefix, hsegsu, hseg 0 (by omega), hseg 1 (by omega),
        hseg 3 (by omega)]
    have he : fndSeg b' 0 ++ fndSeg b' 1 ++
          (fndSeg b' 2 ++ [mkCard (b.foundation.getD 2 0) 2])
        = fndSeg b' 0 ++ fndSeg b' 1 ++ fndSeg b' 2 ++
          [mkCard (b.foundation.getD 2 0) 2] := by
      simp [List.append_assoc]
    rw [he]
    exact (List.perm_append_singleton _ _).append_right _
  · rw [fndPrefix, fndPrefix, hsegsu, hseg 0 (by omega), hseg 1 (by omega),
        hseg 2 (by omega)]
    have he : fndSeg b' 0 ++ fndSeg b' 1 ++ fndSeg b' 2 ++
          (fndSeg b' 3 ++ [mkCard (b.foundation.getD 3 0) 3])
        = fndSeg b' 0 ++ fndSeg b' 1 ++ fndSeg b' 2 ++ fndSeg b' 3 ++
          [mkCard (b.foundation.getD 3 0) 3] := by
      simp [List.append_assoc]
    rw [he]
    exact List.perm_append_singleton _ _

/-!  Invariant preservation for the six move appliers, each under exactly the
guards `possible_moves` checks before calling it. -/

theorem stackable_truthy (btm top : Card) (h : tableau_stackable btm top = true) :
    top.truthy = true := by
  rw [tableau_stackable] at h
  cases htr : top.truthy
  · rw [htr] at h
    simp at h
  · rfl

theorem inv_r2t (b : Board) (hI : Inv b) (r c : Nat) (hr : r < 4) (hc : c < 8)
    (hv : reserve_to_tableau_valid b r c = true) :
    Inv (reserve_to_tableau b r c) := by
  have hG := geo_of_inv b hI
  have hv' : tableau_stackable (b.cascade_back c) (b.reserve.getD r card0) = true := hv
  have hx : (b.reserve.getD r card0).truthy = true := stackable_truthy _ _ hv'
  have hrlen : r < b.reserve.length := by rw [hI.hr]; omega
  have hresperm := set_zero_filter b.reserve r hrlen hx
  have hroom : b.cascade_end 7 ≤ 58 := by
    have h7 := end7_le b hI
    have hrc : 1 ≤ b.reserveCount := by
      show 1 ≤ b.reserve.countP Card.truthy
      rw [List.countP_eq_length_filter]
      have hlen := hresperm.length_eq
      rw [List.length_cons] at hlen
      omega
    omega
  have hGapp := append_geo b hG c hc (b.reserve.getD r card0) hx hroom
  refine ⟨?_, hGapp.hc, ?_, hGapp.hd, hGapp.chain, hGapp.zs, ?_, ?_⟩
  · show (b.reserve.set r card0).length = 4
    rw [List.length_set]
    exact hI.hr
  · exact hI.hf
  · show (reserve_to_tableau b r c).cardCount = 52
    have hcnt := hI.cnt
    rw [Board.cardCount] at hcnt ⊢
    have h1 : (reserve_to_tableau b r c).foundationSum = b.foundationSum := rfl
    have h2 : (reserve_to_tableau b r c).totalCas
        = (copy_from_and_append b c (b.reserve.getD r card0)).totalCas := rfl
    have h3 := append_totalCas b hG c hc (b.reserve.getD r card0)
    have h4 : (reserve_to_tableau b r c).reserveCount + 1 = b.reserveCount := by
      show (b.reserve.set r card0).countP Card.truthy + 1
          = b.reserve.countP Card.truthy
      rw [List.countP_eq_length_filter, List.countP_eq_length_filter]
      have hlen := hresperm.length_eq
      rw [List.length_cons] at hlen
      omega
    omega
  · have hbank : (bankNZ (reserve_to_tableau b r c)).Perm
        (b.reserve.getD r card0 :: bankNZ b) :=
      append_bank_perm b hG c hc (b.reserve.getD r card0) hx
    have hres' : (resNZ b).Perm
        (b.reserve.getD r card0 :: resNZ (reserve_to_tableau b r c)) := hresperm
    have hfnd : fndPrefix (reserve_to_tableau b r c) = fndPrefix b := rfl
    rw [hfnd]
    have s1 : (bankNZ (reserve_to_tableau b r c) ++
          resNZ (reserve_to_tableau b r c) ++ fndPrefix b).Perm
        (b.reserve.getD r card0 ::
          (bankNZ b ++ resNZ (reserve_to_tableau b r c) ++ fndPrefix b)) :=
      (hbank.append_right _).append_right _
    have s2 : (bankNZ b ++ resNZ b ++ fndPrefix b).Perm
        (b.reserve.getD r card0 ::
          (bankNZ b ++ resNZ (reserve_to_tableau b r c) ++ fndPrefix b)) := by
      have ha : (bankNZ b ++ resNZ b).Perm
          (b.reserve.getD r card0 ::
            (bankNZ b ++ resNZ (reserve_to_tableau b r c))) :=
        (List.Perm.append_left _ hres').trans List.perm_middle
      exact ha.append_right _
    exact s1.trans (s2.symm.trans hI.perm)

theorem inv_tt (b : Board) (hI : Inv b) (s d : Nat) (hs : s < 8) (hd' : d < 8)
    (hge : b.cascade_empty s = false) (hv : tableaux_move_valid b s d = true) :
    Inv (tableaux_move b s d) := by
  have hG := geo_of_inv b hI
  have hne := nonempty_of_guard b hG s hs hge
  rcases back_truthy b hG s hs hne with ⟨hbdef, htr⟩
  have hsd : s ≠ d := by
    intro he
    have hv' : tableau_stackable (b.cascade_back d) (b.cascade_back s) = true := hv
    rw [← he] at hv'
    rw [tableau_stackable,
        if_neg (show ¬ ((!(b.cascade_back s).truthy) = true) by rw [htr]; decide)]
      at hv'
    simp only [Bool.or_eq_true, Bool.and_eq_true, beq_iff_eq, bne_iff_ne] at hv'
    rcases hv' with ⟨hf, _⟩ | hz
    · omega
    · rw [Card.truthy, hz] at htr
      exact absurd htr (by decide)
  have hG1 := remove_geo b hG s hs hne
  have hroom1 : (copy_from_but_remove b s).cascade_end 7 ≤ 58 := by
    rw [remove_end b s hG.hd 7 (by omega), if_neg (by omega)]
    have := hG.e7
    omega
  have hG2 := append_geo (copy_from_but_remove b s) hG1 d hd' (b.cascade_back s)
    htr hroom1
  have hdec := tt_decomp b hG s d hs hd' hsd hne
  rw [hdec]
  refine ⟨?_, hG2.hc, ?_, hG2.hd, hG2.chain, hG2.zs, ?_, ?_⟩
  · show b.reserve.length = 4
    exact hI.hr
  · show b.foundation.length = 4
    exact hI.hf
  · show (copy_from_and_append (copy_from_but_remove b s) d
        (b.cascade_back s)).cardCount = 52
    have hcnt := hI.cnt
    rw [Board.cardCount] at hcnt ⊢
    have h1 : (copy_from_and_append (copy_from_but_remove b s) d
        (b.cascade_back s)).foundationSum = b.foundationSum := rfl
    have h1r : (copy_from_and_append (copy_from_but_remove b s) d
        (b.cascade_back s)).reserveCount = b.reserveCount := rfl
    have h2 := append_totalCas (copy_from_but_remove b s) hG1 d hd' (b.cascade_back s)
    have h3 := remove_totalCas b hG s hs hne
    omega
  · have hbank1 := remove_bank_perm b hG s hs hne
    have hbank2 := append_bank_perm (copy_from_but_remove b s) hG1 d hd'
      (b.cascade_back s) htr
    have hbank : (bankNZ (copy_from_and_append (copy_from_but_remove b s) d
        (b.cascade_back s))).Perm (bankNZ b) := hbank2.trans hbank1.symm
    have hfnd : fndPrefix (copy_from_and_append (copy_from_but_remove b s) d
        (b.cascade_back s)) = fndPrefix b := rfl
    have hres : resNZ (copy_from_and_append (copy_from_but_remove b s) d
        (b.cascade_back s)) = resNZ b := rfl
    rw [hfnd, hres]
    exact ((hbank.append_right _).append_right _).trans hI.perm

theorem inv_t2r (b : Board) (hI : Inv b) (s : Nat) (hs : s < 8)
    (hge : b.cascade_empty s = false) (hrf : b.reserve_full = false) :
    Inv (tableau_to_reserve b s) := by
  have hG := geo_of_inv b hI
  have hne := nonempty_of_guard b hG s hs hge
  rcases back_truthy b hG s hs hne with ⟨hbdef, htr⟩
  have hG1 := remove_geo b hG s hs hne
  have hall : b.reserve.all Card.truthy = false := hrf
  have hresperm := reserve_card_filter (b.cascade_back s) htr b.reserve hall
  refine ⟨?_, hG1.hc, ?_, hG1.hd, hG1.chain, hG1.zs, ?_, ?_⟩
  · show (reserve_card b.reserve (b.cascade_back s)).length = 4
    rw [reserve_card_length]
    exact hI.hr
  · exact hI.hf
  · show (tableau_to_reserve b s).cardCount = 52
    have hcnt := hI.cnt
    rw [Board.cardCount] at hcnt ⊢
    have h1 : (tableau_to_reserve b s).foundationSum = b.foundationSum := rfl
    have h2 : (tableau_to_reserve b s).totalCas
        = (copy_from_but_remove b s).totalCas := rfl
    have h3 := remove_totalCas b hG s hs hne
    have h4 : (tableau_to_reserve b s).reserveCount = b.reserveCount + 1 := by
      show (reserve_card b.reserve (b.cascade_back s)).countP Card.truthy
          = b.reserve.countP Card.truthy + 1
      rw [List.countP_eq_length_filter, List.countP_eq_length_filter]
      have hlen := hresperm.length_eq
      rw [List.length_cons] at hlen
      omega
    omega
  · have hbank := remove_bank_perm b hG s hs hne
    have hres' : (resNZ (tableau_to_reserve b s)).Perm
        (b.cascade_back s :: resNZ b) := hresperm
    have hfnd : fndPrefix (tableau_to_reserve b s) = fndPrefix b := rfl
    rw [hfnd]
    have s1 : (bankNZ (tableau_to_reserve b s) ++ resNZ (tableau_to_reserve b s) ++
          fndPrefix b).Perm
        (b.cascade_back s ::
          (bankNZ (tableau_to_reserve b s) ++ resNZ b ++ fndPrefix b)) := by
      have ha : (bankNZ (tableau_to_reserve b s) ++
            resNZ (tableau_to_reserve b s)).Perm
          (b.cascade_back s :: (bankNZ (tableau_to_reserve b s) ++ resNZ b)) :=
        (List.Perm.append_left _ hres').trans List.perm_middle
      exact ha.append_right _
    have s2 : (b.cascade_back s ::
          (bankNZ (tableau_to_reserve b s) ++ resNZ b ++ fndPrefix b)).Perm
        (bankNZ b ++ resNZ b ++ fndPrefix b) :=
      (hbank.symm.append_right _).append_right _
    exact (s1.trans s2).trans hI.perm

theorem inv_t2f (b : Board) (hI : Inv b) (s : Nat) (hs : s < 8)
    (hge : b.cascade_empty s = false)
    (hacc : foundation_can_accept b (b.cascade_back s) = true) :
    Inv (tableau_to_foundation b s) := by
  have hG := geo_of_inv b hI
  have hne := nonempty_of_guard b hG s hs hge
  rcases back_truthy b hG s hs hne with ⟨hbdef, htr⟩
  have hG1 := remove_geo b hG s hs hne
  have hyb : b.cascade_back s ∈ bankNZ b := by
    rw [hbdef]
    apply List.mem_filter.mpr
    constructor
    · apply getD_mem_card
      rw [hG.hc]
      have := hG.e7
      have := end_mono_le b hG.chain s 7 (by omega) (by omega)
      have := base_le_end b hG.chain s hs
      omega
    · rw [← hbdef]
      exact htr
  rcases accept_next b hI (b.cascade_back s) (Or.inl hyb) hacc with
    ⟨hsu4, hface, hmky, hf12⟩
  have hslen : (b.cascade_back s).suit < b.foundation.length := by
    rw [hI.hf]
    omega
  refine ⟨?_, hG1.hc, ?_, hG1.hd, hG1.chain, hG1.zs, ?_, ?_⟩
  · exact hI.hr
  · show (b.foundation.set (b.cascade_back s).suit
        (b.foundation.getD (b.cascade_back s).suit 0 + 1)).length = 4
    rw [List.length_set]
    exact hI.hf
  · show (tableau_to_foundation b s).cardCount = 52
    have hcnt := hI.cnt
    rw [Board.cardCount] at hcnt ⊢
    have h2 : (tableau_to_foundation b s).totalCas
        = (copy_from_but_remove b s).totalCas := rfl
    have h3 := remove_totalCas b hG s hs hne
    have h1r : (tableau_to_foundation b s).reserveCount = b.reserveCount := rfl
    have h1f : (tableau_to_foundation b s).foundationSum = b.foundationSum + 1 := by
      show (b.foundation.set (b.cascade_back s).suit
          (b.foundation.getD (b.cascade_back s).suit 0 + 1)).sum
          = b.foundation.sum + 1
      have := sum_set_getD b.foundation (b.cascade_back s).suit
        (b.foundation.getD (b.cascade_back s).suit 0 + 1) hslen
      omega
    omega
  · have hbank := remove_bank_perm b hG s hs hne
    have hfinc := fndPrefix_inc b (tableau_to_foundation b s)
      (b.cascade_back s).suit hsu4 hI.hf rfl
    have hcard : mkCard (b.foundation.getD (b.cascade_back s).suit 0 + 1)
        (b.cascade_back s).suit = b.cascade_back s := by
      rw [← hface]
      exact hmky
    rw [hcard] at hfinc
    have hres : resNZ (tableau_to_foundation b s) = resNZ b := rfl
    rw [hres]
    have s1 : (bankNZ (tableau_to_foundation b s) ++ resNZ b ++
          fndPrefix (tableau_to_foundation b s)).Perm
        (b.cascade_back s ::
          (bankNZ (tableau_to_foundation b s) ++ resNZ b ++ fndPrefix b)) := by
      have ha := List.Perm.append_left
        (bankNZ (tableau_to_foundation b s) ++ resNZ b) hfinc
      exact ha.trans List.perm_middle
    have s2 : (b.cascade_back s ::
          (bankNZ (tableau_to_foundation b s) ++ resNZ b ++ fndPrefix b)).Perm
        (bankNZ b ++ resNZ b ++ fndPrefix b) :=
      (hbank.symm.append_right _).append_right _
    exact (s1.trans s2).trans hI.perm

theorem inv_f2t (b : Board) (hI : Inv b) (f c : Nat) (hf4 : f < 4) (hc8 : c < 8)
    (hge : b.cascade_empty c = false)
    (hv : foundation_to_tableau_valid b f c = true) :
    Inv (foundation_to_tableau b f c) := by
  have hG := geo_of_inv b hI
  have hfpos : 1 ≤ b.foundation.getD f 0 := by
    by_cases h : b.foundation.getD f 0 = 0
    · rw [foundation_to_tableau_valid, if_pos (by rw [h]; rfl)] at hv
      exact absurd hv (by simp)
    · omega
  have hfle := fnd_le_13 b hI f hf4
  have hxt : (mkCard (b.foundation.getD f 0) f).truthy = true := by
    show ((f % 4 + 4 * (b.foundation.getD f 0 % 32)) != 0) = true
    simp only [bne_iff_ne, ne_eq]
    omega
  have hroom : b.cascade_end 7 ≤ 58 := by
    have h7 := end7_le b hI
    have hsum : b.foundation.getD f 0 ≤ b.foundationSum :=
      getD_le_sum b.foundation f (by rw [hI.hf]; omega)
    omega
  have hG2 := append_geo b hG c hc8 (mkCard (b.foundation.getD f 0) f) hxt hroom
  refine ⟨?_, hG2.hc, ?_, hG2.hd, hG2.chain, hG2.zs, ?_, ?_⟩
  · exact hI.hr
  · show (b.foundation.set f (b.foundation.getD f 0 - 1)).length = 4
    rw [List.length_set]
    exact hI.hf
  · show (foundation_to_tableau b f c).cardCount = 52
    have hcnt := hI.cnt
    rw [Board.cardCount] at hcnt ⊢
    have h2 : (foundation_to_tableau b f c).totalCas
        = (copy_from_and_append b c (mkCard (b.foundation.getD f 0) f)).totalCas := rfl
    have h3 := append_totalCas b hG c hc8 (mkCard (b.foundation.getD f 0) f)
    have h1r : (foundation_to_tableau b f c).reserveCount = b.reserveCount := rfl
    have h1f : (foundation_to_tableau b f c).foundationSum + 1 = b.foundationSum := by
      show (b.foundation.set f (b.foundation.getD f 0 - 1)).sum + 1
          = b.foundation.sum
      have := sum_set_getD b.foundation f (b.foundation.getD f 0 - 1)
        (by rw [hI.hf]; omega)
      omega
    omega
  · have hbank := append_bank_perm b hG c hc8 (mkCard (b.foundation.getD f 0) f) hxt
    have hfdec := fndPrefix_dec b (foundation_to_tableau b f c) f hf4 hI.hf hfpos rfl
    have hres : resNZ (foundation_to_tableau b f c) = resNZ b := rfl
    rw [hres]
    have s1 : (bankNZ (foundation_to_tableau b f c) ++ resNZ b ++
          fndPrefix (foundation_to_tableau b f c)).Perm
        (mkCard (b.foundation.getD f 0) f ::
          (bankNZ b ++ resNZ b ++ fndPrefix (foundation_to_tableau b f c))) :=
      (hbank.append_right _).append_right _
    have s2 : (bankNZ b ++ resNZ b ++ fndPrefix b).Perm
        (mkCard (b.foundation.getD f 0) f ::
          (bankNZ b ++ resNZ b ++ fndPrefix (foundation_to_tableau b f c))) := by
      have ha := List.Perm.append_left (bankNZ b ++ resNZ b) hfdec
      exact ha.trans List.perm_middle
    exact s1.trans (s2.symm.trans hI.perm)

theorem inv_r2f (b : Board) (hI : Inv b) (r : Nat) (hr4 : r < 4)
    (hacc : foundation_can_accept b (b.reserve.getD r card0) = true) :
    Inv (reserve_to_foundation b r) := by
  have hxt : (b.reserve.getD r card0).truthy = true := by
    have hacc' : ((b.reserve.getD r card0).truthy &&
        ((b.foundation.getD (b.reserve.getD r card0).suit 0 + 1) % 13 ==
          (b.reserve.getD r card0).face % 13)) = true := hacc
    simp only [Bool.and_eq_true] at hacc'
    exact hacc'.1
  have hrlen : r < b.reserve.length := by rw [hI.hr]; omega
  have hxr : b.reserve.getD r card0 ∈ resNZ b :=
    List.mem_filter.mpr ⟨getD_mem_card _ r hrlen, hxt⟩
  rcases accept_next b hI (b.reserve.getD r card0) (Or.inr hxr) hacc with
    ⟨hsu4, hface, hmk, hf12⟩
  have hslen : (b.reserve.getD r card0).suit < b.foundation.length := by
    rw [hI.hf]
    omega
  have hresperm := set_zero_filter b.reserve r hrlen hxt
  refine ⟨?_, hI.hc, ?_, hI.hd, hI.chain, hI.zs, ?_, ?_⟩
  · show (b.reserve.set r card0).length = 4
    rw [List.length_set]
    exact hI.hr
  · show (b.foundation.set (b.reserve.getD r card0).suit
        (b.foundation.getD (b.reserve.getD r card0).suit 0 + 1)).length = 4
    rw [List.length_set]
    exact hI.hf
  · show (reserve_to_foundation b r).cardCount = 52
    have hcnt := hI.cnt
    rw [Board.cardCount] at hcnt ⊢
    have h2 : (reserve_to_foundation b r).totalCas = b.totalCas := rfl
    have h1f : (reserve_to_foundation b r).foundationSum = b.foundationSum + 1 := by
      show (b.foundation.set (b.reserve.getD r card0).suit
          (b.foundation.getD (b.reserve.getD r card0).suit 0 + 1)).sum
          = b.foundation.sum + 1
      have := sum_set_getD b.foundation (b.reserve.getD r card0).suit
        (b.foundation.getD (b.reserve.getD r card0).suit 0 + 1) hslen
      omega
    have h1r : (reserve_to_foundation b r).reserveCount + 1 = b.reserveCount := by
      show (b.reserve.set r card0).countP Card.truthy + 1
          = b.reserve.countP Card.truthy
      rw [List.countP_eq_length_filter, List.countP_eq_length_filter]
      have hlen := hresperm.length_eq
      rw [List.length_cons] at hlen
      omega
    omega
  · have hbank : bankNZ (reserve_to_foundation b r) = bankNZ b := rfl
    have hfinc := fndPrefix_inc b (reserve_to_foundation b r)
      (b.reserve.getD r card0).suit hsu4 hI.hf rfl
    have hcard : mkCard (b.foundation.getD (b.reserve.getD r card0).suit 0 + 1)
        (b.reserve.getD r card0).suit = b.reserve.getD r card0 := by
      rw [← hface]
      exact hmk
    rw [hcard] at hfinc
    rw [hbank]
    have s1 : (bankNZ b ++ resNZ (reserve_to_foundation b r) ++
          fndPrefix (reserve_to_foundation b r)).Perm
        (b.reserve.getD r card0 ::
          (bankNZ b ++ resNZ (reserve_to_foundation b r) ++ fndPrefix b)) := by
      have ha := List.Perm.append_left
        (bankNZ b ++ resNZ (reserve_to_foundation b r)) hfinc
      exact ha.trans List.perm_middle
    have s2 : (bankNZ b ++ resNZ b ++ fndPrefix b).Perm
        (b.reserve.getD r card0 ::
          (bankNZ b ++ resNZ (reserve_to_foundation b r) ++ fndPrefix b)) := by
      have ha : (bankNZ b ++ resNZ b).Perm
          (b.reserve.getD r card0 ::
            (bankNZ b ++ resNZ (reserve_to_foundation b r))) :=
        (List.Perm.append_left _ hresperm).trans List.perm_middle
      exact ha.append_right _
    exact s1.trans (s2.symm.trans hI.perm)

/-- Boards reachable from `b0` by the successor moves `possible_moves`
generates: each constructor carries exactly the guards the enumeration
checks (index bounds from the loop ranges, validity predicates, the compiled
`cascade_empty` skip, and the reserve-full test). -/
inductive Reachable (b0 : Board) : Board → Prop
  | init : Reachable b0 b0
  | r2t (b : Board) (r c : Nat) (hR : Reachable b0 b) (hr : r < 4) (hc : c < 8)
      (hv : reserve_to_tableau_valid b r c = true) :
      Reachable b0 (reserve_to_tableau b r c)
  | tt (b : Board) (s d : Nat) (hR : Reachable b0 b) (hs : s < 8) (hd : d < 8)
      (hge : b.cascade_empty s = false) (hv : tableaux_move_valid b s d = true) :
      Reachable b0 (tableaux_move b s d)
  | t2r (b : Board) (s : Nat) (hR : Reachable b0 b) (hs : s < 8)
      (hge : b.cascade_empty s = false) (hrf : b.reserve_full = false) :
      Reachable b0 (tableau_to_reserve b s)
  | t2f (b : Board) (s : Nat) (hR : Reachable b0 b) (hs : s < 8)
      (hge : b.cascade_empty s = false)
      (hacc : foundation_can_accept b (b.cascade_back s) = true) :
      Reachable b0 (tableau_to_foundation b s)
  | f2t (b : Board) (f c : Nat) (hR : Reachable b0 b) (hf : f < 4) (hc : c < 8)
      (hge : b.cascade_empty c = false)
      (hv : foundation_to_tableau_valid b f c = true) :
      Reachable b0 (foundation_to_tableau b f c)
  | r2f (b : Board) (r : Nat) (hR : Reachable b0 b) (hr : r < 4)
      (hacc : foundation_can_accept b (b.reserve.getD r card0) = true) :
      Reachable b0 (reserve_to_foundation b r)

/-- The well-formedness invariant rides along the whole reachable set. -/
theorem inv_reach (b0 b : Board) (hI : Inv b0) (hR : Reachable b0 b) : Inv b := by
  induction hR with
  | init => exact hI
  | r2t b r c hR hr hc hv ih => exact inv_r2t b ih r c hr hc hv
  | tt b s d hR hs hd hge hv ih => exact inv_tt b ih s d hs hd hge hv
  | t2r b s hR hs hge hrf ih => exact inv_t2r b ih s hs hge hrf
  | t2f b s hR hs hge hacc ih => exact inv_t2f b ih s hs hge hacc
  | f2t b f c hR hf hc hge hv ih => exact inv_f2t b ih f c hf hc hge hv
  | r2f b r hR hr hacc ih => exact inv_r2f b ih r hr hacc

/-- A well-formed 52-card starting board: the deck dealt 7/7/7/7/6/6/6/6 into
the eight cascades, empty reserve and foundations. -/
theorem initBoard_inv : Inv initBoard := by
  refine ⟨?_, ?_, ?_, ?_, ?_, ?_, ?_, ?_⟩ <;> decide

/-- C7: every board reachable from a well-formed 52-card deal by the
successor moves keeps foundation total + occupied reserve slots + cascade
cards equal to 52, and each of the six move appliers preserves the total
under exactly the guards `possible_moves` checks. -/
theorem c7_card_conservation :
    (∀ b0 b, Inv b0 → Reachable b0 b →
      b.foundationSum + b.reserveCount + b.totalCas = 52) ∧
    (∀ b r c, Inv b → r < 4 → c < 8 → reserve_to_tableau_valid b r c = true →
      (reserve_to_tableau b r c).cardCount = b.cardCount) ∧
    (∀ b s d, Inv b → s < 8 → d < 8 → b.cascade_empty s = false →
      tableaux_move_valid b s d = true →
      (tableaux_move b s d).cardCount = b.cardCount) ∧
    (∀ b s, Inv b → s < 8 → b.cascade_empty s = false → b.reserve_full = false →
      (tableau_to_reserve b s).cardCount = b.cardCount) ∧
    (∀ b s, Inv b → s < 8 → b.cascade_empty s = false →
      foundation_can_accept b (b.cascade_back s) = true →
      (tableau_to_foundation b s).cardCount = b.cardCount) ∧
    (∀ b f c, Inv b → f < 4 → c < 8 → b.cascade_empty c = false →
      foundation_to_tableau_valid b f c = true →
      (foundation_to_tableau b f c).cardCount = b.cardCount) ∧
    (∀ b r, Inv b → r < 4 →
      foundation_can_accept b (b.reserve.getD r card0) = true →
      (reserve_to_foundation b r).cardCount = b.cardCount) := by
  refine ⟨?_, ?_, ?_, ?_, ?_, ?_, ?_⟩
  · intro b0 b hI hR
    have h := (inv_reach b0 b hI hR).cnt
    rw [Board.cardCount] at h
    exact h
  · intro b r c hI hr hc hv
    rw [(inv_r2t b hI r c hr hc hv).cnt, hI.cnt]
  · intro b s d hI hs hd hge hv
    rw [(inv_tt b hI s d hs hd hge hv).cnt, hI.cnt]
  · intro b s hI hs hge hrf
    rw [(inv_t2r b hI s hs hge hrf).cnt, hI.cnt]
  · intro b s hI hs hge hacc
    rw [(inv_t2f b hI s hs hge hacc).cnt, hI.cnt]
  · intro b f c hI hf hc hge hv
    rw [(inv_f2t b hI f c hf hc hge hv).cnt, hI.cnt]
  · intro b r hI hr hacc
    rw [(inv_r2f b hI r hr hacc).cnt, hI.cnt]

/-- Witness for C7: the invariant holds of the concrete dealt board, and the
conservation theorem applied at it (with the trivial reachability) returns
its card count 52. -/
theorem c7_card_conservation_witness :
    Inv initBoard ∧
      initBoard.foundationSum + initBoard.reserveCount + initBoard.totalCas = 52 :=
  ⟨initBoard_inv,
   c7_card_conservation.1 initBoard initBoard initBoard_inv Reachable.init⟩

end FC
